import Mathlib

/-!
# Verification of the InvoiceMerger column-detection pipeline

Shallow embedding of `src/utils.py` and `src/database.py` of the
InvoiceMerger repository.

Modelling conventions:
* A table cell is `Option String`: `none` models Python `None`/`NaN`
  (anything for which `pd.isna` holds), `some s` models any other value by
  its string form (the code applies `str(...)`/`astype(str)` before every
  textual test, and numeric cells are carried in their decimal string form).
* Python `float(...)` parsing (used by `is_numeric` / the header filter)
  is embedded by `floatAcceptList`, implementing the CPython grammar
  `[sign] (digitpart [. digitpart?] | . digitpart) [exponent]` with
  underscores between digits, plus the case-insensitive `inf`, `infinity`
  and `nan` forms.  `pd.to_numeric(..., errors='coerce')` is embedded by
  `toNumericStr`, which returns the parsed value as an exact rational
  (`none` for unparseable/missing input; the non-finite forms, which can
  never affect the claims below, are mapped to `none`).
* Float arithmetic in the scoring heuristics is modelled by exact `ℚ`
  arithmetic; thresholds `0.3`, `0.7`, `0.2`, `0.1`, `0.5` become the exact
  rationals they denote.
* Case operations and whitespace are ASCII, matching the data the
  heuristics are written for (every regex and keyword in the source is
  ASCII).
-/

namespace InvoiceMerger

/-! ## Character classes and Python string primitives -/

/-- ASCII whitespace, as stripped by Python `str.strip()` / split by `str.split()`. -/
def isWsCh (c : Char) : Bool :=
  c = ' ' || c = '\t' || c = '\n' || c = '\r' || c = '\x0b' || c = '\x0c'

def isDigitCh (c : Char) : Bool := '0' ≤ c && c ≤ '9'

def isUpperCh (c : Char) : Bool := 'A' ≤ c && c ≤ 'Z'

def isLowerCh (c : Char) : Bool := 'a' ≤ c && c ≤ 'z'

/-- A cased (ASCII alphabetic) character. -/
def isAlphaCh (c : Char) : Bool := isUpperCh c || isLowerCh c

/-- A regex word character (`\w`): letter, digit or underscore. -/
def isWordCh (c : Char) : Bool := isAlphaCh c || isDigitCh c || c = '_'

def lowerCh (c : Char) : Char :=
  if isUpperCh c then Char.ofNat (c.toNat + 32) else c

/-- The ASCII uppercase table. -/
def upperPairs : List (Char × Char) :=
  [('a', 'A'), ('b', 'B'), ('c', 'C'), ('d', 'D'), ('e', 'E'), ('f', 'F'),
   ('g', 'G'), ('h', 'H'), ('i', 'I'), ('j', 'J'), ('k', 'K'), ('l', 'L'),
   ('m', 'M'), ('n', 'N'), ('o', 'O'), ('p', 'P'), ('q', 'Q'), ('r', 'R'),
   ('s', 'S'), ('t', 'T'), ('u', 'U'), ('v', 'V'), ('w', 'W'), ('x', 'X'),
   ('y', 'Y'), ('z', 'Z')]

/-- ASCII uppercase map. -/
def upperCh (c : Char) : Char :=
  ((upperPairs.find? (fun p => p.1 == c)).map Prod.snd).getD c

/-- Python `str.strip()`. -/
def pyStrip (l : List Char) : List Char :=
  ((l.dropWhile isWsCh).reverse.dropWhile isWsCh).reverse

/-- Python `str.split()` (split on whitespace runs, no empty words). -/
def splitWs : List Char → List (List Char)
  | [] => []
  | c :: rest =>
    if isWsCh c then splitWs rest
    else
      match splitWs rest, rest.headD ' ' with
      | [], _ => [[c]]
      | w :: ws, d => if isWsCh d then [c] :: w :: ws else (c :: w) :: ws

/-! ## The CPython `float()` grammar -/

/-- Consume the tail of a `digitpart`: `(["_"] digit)*` mixed with plain
digits, after at least one digit has been read. -/
def eatDigitsAux : List Char → List Char
  | [] => []
  | c :: r =>
    if isDigitCh c then eatDigitsAux r
    else if c = '_' then
      match r with
      | d :: r2 => if isDigitCh d then eatDigitsAux r2 else c :: r
      | [] => c :: r
    else c :: r

/-- Consume a `digitpart` (`digit (["_"] digit)*`); `none` if no leading digit. -/
def eatDigits : List Char → Option (List Char)
  | [] => none
  | c :: r => if isDigitCh c then some (eatDigitsAux r) else none

/-- Strip one optional leading sign. -/
def stripSign : List Char → List Char
  | [] => []
  | c :: r => if c = '+' || c = '-' then r else c :: r

/-- Consume an optional `digitpart`. -/
def eatDigitsOpt (l : List Char) : List Char :=
  match eatDigits l with
  | some r => r
  | none => l

/-- Consume the mantissa `digitpart [. [digitpart]] | . digitpart`,
returning the rest (the would-be exponent part). -/
def mantissaRest : List Char → Option (List Char)
  | [] => none
  | c :: r =>
    if c = '.' then eatDigits r
    else
      match eatDigits (c :: r) with
      | none => none
      | some [] => some []
      | some (c1 :: r2) => if c1 = '.' then some (eatDigitsOpt r2) else some (c1 :: r2)

/-- The exponent tail after `e`/`E`: `[sign] digitpart`, consuming everything. -/
def expTail (l : List Char) : Bool :=
  match eatDigits (stripSign l) with
  | some [] => true
  | _ => false

/-- Numeric-literal body (no sign, no surrounding whitespace). -/
def mantExpOk (l : List Char) : Bool :=
  match mantissaRest l with
  | none => false
  | some [] => true
  | some (c :: r2) => (c = 'e' || c = 'E') && expTail r2

/-- The `inf` / `infinity` / `nan` forms, case-insensitive. -/
def infnanOk (l : List Char) : Bool :=
  let low := l.map lowerCh
  low = "inf".toList || low = "infinity".toList || low = "nan".toList

/-- Whether CPython `float(...)` accepts the character list. -/
def floatAcceptList (l : List Char) : Bool :=
  let core := stripSign (pyStrip l)
  infnanOk core || mantExpOk core

/-- The `str.replace(',', '.')` character map. -/
def commaRepl (c : Char) : Char := if c = ',' then '.' else c

/-- `utils.is_numeric`: replace `,` by `.` then try `float(...)`. -/
def is_numeric (value : String) : Bool :=
  floatAcceptList (value.toList.map commaRepl)

/-! ## Kernel-computable rational arithmetic

The `Add`/`Mul` instances of `ℚ` are `@[irreducible]`, which stops kernel
evaluation of concrete witnesses; `mkRat`/`Rat.divInt` reduce fine.  The
heuristic scores below therefore use `qadd`/`qmul`/`qdiv`, each proved
equal to the corresponding field operation of `ℚ`. -/

def qadd (a b : ℚ) : ℚ := mkRat (a.num * b.den + b.num * a.den) (a.den * b.den)

def qmul (a b : ℚ) : ℚ := mkRat (a.num * b.num) (a.den * b.den)

def qdiv (a b : ℚ) : ℚ := Rat.divInt (a.num * b.den) ((a.den : ℤ) * b.num)

def qsum (l : List ℚ) : ℚ := l.foldl qadd 0

/-- `.mean()` of a nonempty pandas series (callers guard emptiness the way
the source does, since a float `NaN` mean makes every comparison false). -/
def qavg (l : List ℚ) : ℚ := qdiv (qsum l) (l.length : ℚ)

/-! ## Regex search primitives

The regexes used by the source are alternations of plain literals,
optionally glued by `\s*` and in one place by a starred literal group;
backtracking never changes the outcome for these patterns, so a greedy
left-to-right matcher embeds `re.search` faithfully. -/

/-- `re.search`: try a position predicate at every suffix. -/
def searchBy (p : List Char → Bool) : List Char → Bool
  | [] => p []
  | l@(_ :: rest) => p l || searchBy p rest

/-- Case-insensitive prefix test; `pat` is given pre-lowercased. -/
def icPrefixOf : List Char → List Char → Bool
  | [], _ => true
  | _ :: _, [] => false
  | c :: cs, d :: ds => lowerCh d = c && icPrefixOf cs ds

/-- Case-insensitive substring search (a bare-literal regex pattern). -/
def containsCI (pat : List Char) (l : List Char) : Bool :=
  searchBy (fun suf => icPrefixOf pat suf) l

/-- Greedily consume case-insensitive repetitions of a nonempty literal `w`
(a `(?:w)*` group); structural recursion on a fuel that the caller sets to
`l.length`, which each nonempty repetition strictly decreases below. -/
def eatRepsF (w : List Char) : ℕ → List Char → List Char
  | 0, l => l
  | fuel + 1, l =>
    if icPrefixOf w l && !w.isEmpty then eatRepsF w fuel (l.drop w.length) else l

def eatReps (w : List Char) (l : List Char) : List Char :=
  eatRepsF w l.length l

/-- Match literals glued by `\s*` at the current position. -/
def seqAt (parts : List (List Char)) (l : List Char) : Bool :=
  match parts with
  | [] => true
  | p :: ps => icPrefixOf p l && seqAt ps ((l.drop p.length).dropWhile isWsCh)

/-- `re.search` for a pattern `a\s*b\s*c...` of plain literals. -/
def searchSeq (parts : List (List Char)) (l : List Char) : Bool :=
  searchBy (seqAt parts) l

/-- Match `a\s*(?:w)*\s*b` at the current position. -/
def starSeqAt (a w b : List Char) (l : List Char) : Bool :=
  icPrefixOf a l &&
    (let r := (l.drop a.length).dropWhile isWsCh
     let r2 := (eatReps w r).dropWhile isWsCh
     icPrefixOf b r2)

/-- `re.search` for a pattern `a\s*(?:w)*\s*b`. -/
def searchStarSeq (a w b : List Char) (l : List Char) : Bool :=
  searchBy (starSeqAt a w b) l

/-! ## `pd.to_numeric(..., errors='coerce')`

Parses a plain decimal literal (optional sign, digits, optional fraction,
optional exponent, surrounding whitespace) into an exact rational; every
other string — including empty, `NaN` and the non-finite forms, which
cannot occur in any statement below — coerces to missing (`none`). -/

/-- Consume a digit run, returning `(value, digit count, rest)`. -/
def readDigits : List Char → ℕ → ℕ → ℕ × ℕ × List Char
  | c :: r, acc, cnt =>
    if isDigitCh c then readDigits r (10 * acc + (c.toNat - 48)) (cnt + 1)
    else (acc, cnt, c :: r)
  | [], acc, cnt => (acc, cnt, [])

def toNumericStr (s : String) : Option ℚ :=
  let l := pyStrip s.toList
  let sgn : ℚ := match l with
    | '-' :: _ => -1
    | _ => 1
  let l1 := stripSign l
  let ip := readDigits l1 0 0
  let fp := match ip.2.2 with
    | '.' :: rr => readDigits rr 0 0
    | _ => (0, 0, ip.2.2)
  if ip.2.1 = 0 && fp.2.1 = 0 then none
  else
    let base : ℚ := qadd (ip.1 : ℚ) (qdiv (fp.1 : ℚ) ((10 ^ fp.2.1 : ℕ) : ℚ))
    match fp.2.2 with
    | [] => some (qmul sgn base)
    | c :: r3 =>
      if c = 'e' || c = 'E' then
        let esgn : ℤ := match r3 with
          | '-' :: _ => -1
          | _ => 1
        let ep := readDigits (stripSign r3) 0 0
        if ep.2.1 ≠ 0 && ep.2.2.isEmpty then
          let scale : ℚ :=
            if esgn = 1 then ((10 ^ ep.1 : ℕ) : ℚ)
            else Rat.divInt 1 ((10 ^ ep.1 : ℕ) : ℤ)
          some (qmul (qmul sgn base) scale)
        else none
      else none

/-- `pd.to_numeric` on one cell (`NaN` in, `NaN` out). -/
def toNumericCell (cell : Option String) : Option ℚ :=
  match cell with
  | none => none
  | some s => toNumericStr s

/-- `utils.is_numeric_column`: at least half of the rows convert
(`pd.to_numeric(column, errors='coerce').notna().mean() >= 0.5`; for an
empty column the float mean is `NaN` and the comparison is false). -/
def is_numeric_column (cells : List (Option String)) : Bool :=
  let k := cells.countP (fun c => (toNumericCell c).isSome)
  !cells.isEmpty && decide (qdiv 1 2 ≤ qdiv (k : ℚ) (cells.length : ℚ))

/-! ## Header-row filter (`utils.is_header_row`) -/

/-- The fixed keyword alternation of the header regex (line 18 of utils.py). -/
def headerKeywords : List (List Char) :=
  ["name", "company", "currency", "price", "amount", "total",
   "invoice", "date", "sum", "vendor"].map String.toList

/-- `header_pattern.search(cell_str)`. -/
def hasHeaderKeyword (l : List Char) : Bool :=
  headerKeywords.any (fun k => containsCI k l)

/-- The stripped string of a cell if the cell is neither missing nor
whitespace-only (the cells `is_header_row` does not skip). -/
def cellActiveStr (cell : Option String) : Option (List Char) :=
  match cell with
  | none => none
  | some s =>
    let t := pyStrip s.toList
    if t.isEmpty then none else some t

/-- The row-scan of `is_header_row`, cell by cell: counts
(header-keyword hits, non-numeric hits, non-empty cells). -/
def headerCounts (row : List (Option String)) : ℕ × ℕ × ℕ :=
  (row.countP (fun c =>
      match cellActiveStr c with
      | some t => hasHeaderKeyword t
      | none => false),
   row.countP (fun c =>
      match cellActiveStr c with
      | some t => !floatAcceptList (t.map commaRepl)
      | none => false),
   row.countP (fun c => (cellActiveStr c).isSome))

/-- `utils.is_header_row`.  The two `0.3` / `0.7` float thresholds are the
exact rationals `3/10` and `7/10` (no count ratio can fall inside the
`≈ 1e-17` gap between a binary float threshold and its decimal reading). -/
def is_header_row (row : List (Option String)) : Bool :=
  let counts := headerCounts row
  let kw := counts.1
  let nn := counts.2.1
  let nonEmpty := counts.2.2
  if nonEmpty = 0 then false
  else decide (qdiv 3 10 < qdiv (kw : ℚ) (nonEmpty : ℚ) ∨
               qdiv 7 10 < qdiv (nn : ℚ) (nonEmpty : ℚ))

/-- Every non-empty cell of the row parses as a number under the
comma-as-decimal tolerance (the hypothesis of testable property C8). -/
def rowAllNumeric (row : List (Option String)) : Bool :=
  row.all (fun cell =>
    match cellActiveStr cell with
    | some t => floatAcceptList (t.map commaRepl)
    | none => true)

/-! ## The table model

A pandas `DataFrame` after `read_csv`: named columns of cells plus the row
count (`len(df)`), and per column the pandas-inferred dtype flag that
`detect_currency` consults via `pd.api.types.is_numeric_dtype`. -/

structure Column where
  name : String
  numericDtype : Bool
  cells : List (Option String)

structure DataFrame where
  nrows : ℕ
  cols : List Column

/-- `df[label]` (pandas column labels are unique after `read_csv` mangling). -/
def getCol (df : DataFrame) (label : String) : List (Option String) :=
  match df.cols.find? (fun c => c.name == label) with
  | some c => c.cells
  | none => []

/-- `df[col].dropna().astype(str).head(k)`. -/
def sampleStrs (cells : List (Option String)) (k : ℕ) : List String :=
  (cells.filterMap id).take k

/-! ## Word-boundary keyword machinery (`\b(kw1|...|kwn)\b`)

The keywords all start and end with word characters, so the regex matches
a keyword at a position exactly when the preceding character (if any) is a
non-word character and the character following the keyword (if any) is a
non-word character; alternatives are tried in source order. -/

/-- `\b` after a literal: next char (if any) is not a word char. -/
def boundaryAfter : List Char → Bool
  | [] => true
  | c :: _ => !isWordCh c

/-- Try the keyword alternation at the current position (case-insensitive,
checking the trailing boundary); returns the rest after the match. -/
def kwMatchAt : List (List Char) → List Char → Option (List Char)
  | [], _ => none
  | kw :: kws, l =>
    if icPrefixOf kw l && boundaryAfter (l.drop kw.length) then some (l.drop kw.length)
    else kwMatchAt kws l

/-- `re.search(r'\b(...)\b', s)`: scan tracking whether the previous
character was a word character (no match may start after one). -/
def boundarySearch (kws : List (List Char)) : Bool → List Char → Bool
  | _, [] => false
  | prevW, c :: r =>
    (!prevW && (kwMatchAt kws (c :: r)).isSome) || boundarySearch kws (isWordCh c) r

/-- The business-suffix alternation of `detect_full_company_name`
(line 112 of utils.py). -/
def bizTerms : List (List Char) :=
  ["inc", "llc", "ltd", "gmbh", "corp", "company", "co"].map String.toList

def hasBizTerm (s : String) : Bool := boundarySearch bizTerms false s.toList

/-- `re.search(r'[A-Z][a-z]', s)`. -/
def hasCapPair : List Char → Bool
  | a :: b :: r => (isUpperCh a && isLowerCh b) || hasCapPair (b :: r)
  | _ => false

/-- `len(str(x).split())`. -/
def pyWords (s : String) : ℕ := (splitWs s.toList).length

/-- Python `str.isupper()`: has a cased character and every cased character
is uppercase. -/
def pyIsUpper (s : String) : Bool :=
  let cased := s.toList.filter isAlphaCh
  !cased.isEmpty && cased.all isUpperCh

/-! ## Field classifiers -/

/-- Stable maximum: the earliest element with the maximal score, as
delivered by Python's stable `sort(reverse=True)` followed by `[0]`, or by
the `score > best_score` running update. -/
def pickBestGo (best : String × ℚ) : List (String × ℚ) → String × ℚ
  | [] => best
  | x :: xs => pickBestGo (if best.2 < x.2 then x else best) xs

def pickBest : List (String × ℚ) → Option (String × ℚ)
  | [] => none
  | x :: xs => some (pickBestGo x xs)

/-- The first `some` produced along a list (the two nested `for` loops with
early `return`, pattern priority outranking column order). -/
def firstSome {α β : Type} (f : α → Option β) : List α → Option β
  | [] => none
  | a :: as =>
    match f a with
    | some b => some b
    | none => firstSome f as

/-- First column (in order) whose label matches, for the first pattern (in
priority order) with any matching column. -/
def detectByName (pats : List (List Char → Bool)) (df : DataFrame) : Option String :=
  firstSome (fun p => (df.cols.find? (fun c => p c.name.toList)).map Column.name) pats

/-- The eight label regexes of `detect_full_company_name`, in priority order. -/
def fullNamePats : List (List Char → Bool) :=
  [ searchStarSeq "company".toList "full".toList "name".toList
  , searchSeq ["full".toList, "name".toList]
  , searchSeq ["vendor".toList, "name".toList]
  , searchSeq ["supplier".toList, "name".toList]
  , searchSeq ["business".toList, "name".toList]
  , searchSeq ["client".toList, "name".toList]
  , searchSeq ["full".toList, "company".toList]
  , containsCI "company".toList ]

/-- Content score of `detect_full_company_name` (sample is nonempty: the
all-numeric guard already skipped empty samples). -/
def fullNameScore (sample : List String) : ℚ :=
  let avgWords := qavg (sample.map (fun s => (pyWords s : ℚ)))
  let hasCap : ℚ :=
    if qdiv 1 2 < qavg (sample.map (fun s => if hasCapPair s.toList then 1 else 0)) then 3 else 0
  let avgLen := qavg (sample.map (fun s => (s.length : ℚ)))
  let biz : ℚ :=
    if qdiv 1 5 < qavg (sample.map (fun s => if hasBizTerm s then 1 else 0)) then 4 else 0
  qadd (qadd (qadd (qmul avgWords 2) hasCap) (qmul avgLen (qdiv 1 10))) biz

def detect_full_company_name (df : DataFrame) : Option String :=
  match detectByName fullNamePats df with
  | some c => some c
  | none =>
    let string_columns := df.cols.filterMap (fun c =>
      let sample := sampleStrs c.cells 10
      if sample.all (fun v => is_numeric v) then none
      else some (c.name, fullNameScore sample))
    (pickBest string_columns).bind (fun best => if 2 < best.2 then some best.1 else none)

/-- The six label regexes of `detect_short_company_name`, in priority order. -/
def shortNamePats : List (List Char → Bool) :=
  [ searchStarSeq "short".toList "company".toList "name".toList
  , searchSeq ["company".toList, "short".toList, "name".toList]
  , containsCI "abbrev".toList
  , containsCI "short".toList
  , containsCI "code".toList
  , containsCI "acronym".toList ]

def shortNameScore (sample : List String) : ℚ :=
  let avgWords := qavg (sample.map (fun s => (pyWords s : ℚ)))
  let isUp := qdiv 1 2 < qavg (sample.map (fun s => if pyIsUpper s then 1 else 0))
  let avgLen := qavg (sample.map (fun s => (s.length : ℚ)))
  let lengthScore : ℚ := if avgLen < 15 then qdiv 10 (qadd avgLen 1) else 0
  let upperScore : ℚ := if isUp then 2 else 0
  let wordScore : ℚ := if avgWords ≤ 2 then 3 else 0
  qadd (qadd lengthScore upperScore) wordScore

/-- Content tier of `detect_short_company_name`: columns equal to the
already-detected full-name column are excluded from candidacy. -/
def shortNameContent (df : DataFrame) (full_name_col : Option String) : Option String :=
  (pickBest (df.cols.filterMap (fun c =>
    if some c.name = full_name_col then none
    else if (sampleStrs c.cells 10).all (fun v => is_numeric v) then none
    else some (c.name, shortNameScore (sampleStrs c.cells 10))))).bind
    (fun best => if 2 < best.2 then some best.1 else none)

def detect_short_company_name (df : DataFrame) (full_name_col : Option String) :
    Option String :=
  match detectByName shortNamePats df with
  | some c => some c
  | none => shortNameContent df full_name_col

/-- The three label regexes of `detect_currency`. -/
def currencyPats : List (List Char → Bool) :=
  [ containsCI "currency".toList, containsCI "curr".toList, containsCI "ccy".toList ]

def currency_codes : List String :=
  ["USD", "EUR", "GBP", "JPY", "AUD", "CAD", "CHF", "CNY", "INR"]

def currency_symbols : List Char := ['$', '€', '£', '¥', '₹', '₽', '₩']

def pyUpperStr (s : String) : String := ⟨s.toList.map upperCh⟩

def pyStripStr (s : String) : String := ⟨pyStrip s.toList⟩

def currencyScore (sample : List String) : ℚ :=
  let codeMatches := sample.countP (fun v =>
    currency_codes.any (fun code => code == pyUpperStr (pyStripStr v)))
  let symbolMatches := sample.countP (fun v =>
    currency_symbols.any (fun sy => v.toList.contains sy))
  let avgLen := qavg (sample.map (fun s => (s.length : ℚ)))
  let lengthScore : ℚ :=
    if !sample.isEmpty && decide (1 ≤ avgLen ∧ avgLen ≤ 4) then 2 else 0
  qadd (qadd (qmul (codeMatches : ℚ) 2) (qmul (symbolMatches : ℚ) 2)) lengthScore

def detect_currency (df : DataFrame) : Option String :=
  match detectByName currencyPats df with
  | some c => some c
  | none =>
    let best := df.cols.foldl (fun (b : Option String × ℚ) c =>
      if c.numericDtype then b
      else
        let score := currencyScore (sampleStrs c.cells 20)
        if b.2 < score then (some c.name, score) else b) (none, 0)
    if 2 ≤ best.2 then best.1 else none

/-- The seven label regexes of `detect_price`, in priority order. -/
def pricePats : List (List Char → Bool) :=
  [ containsCI "price".toList, containsCI "amount".toList, containsCI "total".toList
  , containsCI "sum".toList, containsCI "cost".toList, containsCI "fee".toList
  , containsCI "value".toList ]

/-- Name tier of `detect_price`: a label match is returned only when the
column also passes `is_numeric_column`. -/
def priceNameTier (df : DataFrame) : Option String :=
  firstSome (fun p =>
    (df.cols.find? (fun c => p c.name.toList && is_numeric_column c.cells)).map Column.name)
    pricePats

def priceScore (non_na_values : List ℚ) : ℚ :=
  let positive_ratio := qavg (non_na_values.map (fun q => if 0 < q then (1 : ℚ) else 0))
  let has_decimals := qavg (non_na_values.map (fun q => if q.den ≠ 1 then (1 : ℚ) else 0))
  let magnitude_score : ℚ :=
    if qdiv 1 10 ≤ qavg non_na_values ∧ qavg non_na_values ≤ 1000000 then 1 else 0
  qadd (qadd (qmul positive_ratio 2) (qmul has_decimals 2)) magnitude_score

def detect_price (df : DataFrame) : Option String :=
  match priceNameTier df with
  | some c => some c
  | none =>
    let numeric_cols := df.cols.filterMap (fun c =>
      if is_numeric_column c.cells then
        let values := c.cells.map toNumericCell
        if qmul (df.nrows : ℚ) (qdiv 7 10) < (values.countP Option.isNone : ℚ) then none
        else
          let nn := values.filterMap id
          if nn.isEmpty then none else some (c.name, priceScore nn)
      else none)
    (pickBest numeric_cols).bind (fun best => if 2 ≤ best.2 then some best.1 else none)

structure Detected where
  full_name : Option String
  short_name : Option String
  currency : Option String
  price : Option String
deriving DecidableEq

/-- `utils.detect_columns`. -/
def detect_columns (df : DataFrame) : Detected :=
  let fn := detect_full_company_name df
  { full_name := fn
    short_name := detect_short_company_name df fn
    currency := detect_currency df
    price := detect_price df }

/-! ## Short-name derivation (`utils.generate_short_name`) -/

/-- The corporate-suffix alternation, in source order (`\b` on both sides
makes e.g. `Corporation` win over its prefixes `Corp`/`Co`, exactly as
Python's ordered alternation does once the trailing boundary is checked). -/
def identifierKws : List (List Char) :=
  ["inc", "llc", "ltd", "gmbh", "corp", "company", "co",
   "corporation", "limited", "group"].map String.toList

/-- `re.sub(r'\b(Inc|...|Group)\b', '', s, flags=IGNORECASE)`: left-to-right
scan removing non-overlapping boundary-delimited keyword matches.  Fuel is
set to the list length by the wrapper; every step consumes at least one
character, so it never runs out. -/
def subIdentifiersF : ℕ → Bool → List Char → List Char
  | 0, _, l => l
  | fuel + 1, prevW, l =>
    match l with
    | [] => []
    | c :: r =>
      if !prevW then
        match kwMatchAt identifierKws (c :: r) with
        | some rest => subIdentifiersF fuel true rest
        | none => c :: subIdentifiersF fuel (isWordCh c) r
      else c :: subIdentifiersF fuel (isWordCh c) r

def subIdentifiers (l : List Char) : List Char := subIdentifiersF l.length false l

/-- Whether a string position starts a match of `,\s*\w+$`: whitespace run,
then a nonempty word-character run reaching the end. -/
def commaTailMatch (l : List Char) : Bool :=
  let r := l.dropWhile isWsCh
  !r.isEmpty && r.all isWordCh

/-- `re.sub(r',\s*\w+$', '', s)`: cut at the leftmost (hence only) comma
whose whole suffix is whitespace-then-word-characters. -/
def commaSub : List Char → List Char
  | [] => []
  | c :: r => if c = ',' && commaTailMatch r then [] else c :: commaSub r

/-- The cleaning loop of `generate_short_name`: each pattern is substituted
away and the result stripped. -/
def cleanName (t : List Char) : List Char :=
  pyStrip (commaSub (pyStrip (subIdentifiers t)))

/-- `''.join(word[0].upper() for word in words if word)`. -/
def acronymOf (words : List (List Char)) : List Char :=
  (words.filter (fun w => !w.isEmpty)).map (fun w => upperCh (w.headD ' '))

/-- The tail of `generate_short_name` after cleaning: acronym when the
cleaned name has at least two words and the acronym has at least two
characters, else the cleaned name verbatim when at most ten characters,
else its first ten characters. -/
def shortFromClean (cleaned : List Char) : String :=
  if 1 < (splitWs cleaned).length then
    if 2 ≤ (acronymOf (splitWs cleaned)).length then ⟨acronymOf (splitWs cleaned)⟩
    else if cleaned.length ≤ 10 then ⟨cleaned⟩ else ⟨cleaned.take 10⟩
  else if cleaned.length ≤ 10 then ⟨cleaned⟩ else ⟨cleaned.take 10⟩

/-- `utils.generate_short_name`.  `none` models a `pd.isna` argument; the
empty string is the only falsy `str` (the `not full_name` test runs before
`str(...).strip()`). -/
def generate_short_name (full_name : Option String) : String :=
  match full_name with
  | none => "Unknown"
  | some s =>
    if s = "" then "Unknown"
    else shortFromClean (cleanName (pyStrip s.toList))

/-! ## Standardizer (`utils.standardize_dataframe`)

The output frame is built by four successive pandas column assignments on
an initially empty `DataFrame`, whose index semantics matter:
* assigning a scalar broadcasts over the frame's current index;
* assigning a Series to a frame whose index is nonempty aligns the Series
  to that index (missing positions become `NaN`);
* assigning a nonempty Series to a frame whose index is still empty makes
  the frame adopt the Series' index, reindexing every previously assigned
  column — their values become all-`NaN`
  (`DataFrame._ensure_valid_index`). -/

/-- An output cell: a string, a float (exact rational), or missing. -/
inductive Val
  | s (v : String)
  | q (v : ℚ)
  | na
deriving DecidableEq

/-- The frame under construction: current index length and columns in
assignment order. -/
structure BuildState where
  nrows : ℕ
  cols : List (String × List Val)
deriving DecidableEq

def emptyBuild : BuildState := ⟨0, []⟩

/-- Reindex a Series of values to an index of length `n` (positions past
the Series become `NaN`). -/
def alignSeries (n : ℕ) (v : List Val) : List Val :=
  v.take n ++ List.replicate (n - v.length) Val.na

/-- `frame[name] = series`. -/
def assignSeries (st : BuildState) (name : String) (v : List Val) : BuildState :=
  if st.nrows = 0 && !v.isEmpty then
    ⟨v.length,
     st.cols.map (fun p => (p.1, List.replicate v.length Val.na)) ++ [(name, v)]⟩
  else ⟨st.nrows, st.cols ++ [(name, alignSeries st.nrows v)]⟩

/-- `frame[name] = scalar`. -/
def assignScalar (st : BuildState) (name : String) (x : Val) : BuildState :=
  ⟨st.nrows, st.cols ++ [(name, List.replicate st.nrows x)]⟩

/-- Look a built column up by label. -/
def colVals (st : BuildState) (name : String) : Option (List Val) :=
  (st.cols.find? (fun p => p.1 == name)).map Prod.snd

/-- A source cell carried into the output (source cells are strings). -/
def cellToVal (cell : Option String) : Val :=
  match cell with
  | none => Val.na
  | some s => Val.s s

/-- The per-row lambda of the short-name fallback:
`generate_short_name(x) if pd.notna(x) else "Unknown"` applied to the
already-standardized full-name column (whose values are strings or
missing; the numeric constructor cannot occur there). -/
def derivedShortVal (v : Val) : Val :=
  match v with
  | Val.s t => Val.s (generate_short_name (some t))
  | _ => Val.s "Unknown"

/-- `pd.to_numeric(df[col], errors='coerce')` on one source cell. -/
def toNumericVal (cell : Option String) : Val :=
  match toNumericCell cell with
  | some q => Val.q q
  | none => Val.na

/-- `utils.standardize_dataframe`. -/
def standardize_dataframe (df : DataFrame) (detected_columns : Detected) : BuildState :=
  let st0 := emptyBuild
  let st1 :=
    match detected_columns.full_name with
    | some c => assignSeries st0 "company_full_name" ((getCol df c).map cellToVal)
    | none => assignScalar st0 "company_full_name" (Val.s "Unknown")
  let st2 :=
    match detected_columns.short_name with
    | some c => assignSeries st1 "company_short_name" ((getCol df c).map cellToVal)
    | none =>
      match detected_columns.full_name with
      | some _ =>
        assignSeries st1 "company_short_name"
          (((colVals st1 "company_full_name").getD []).map derivedShortVal)
      | none => assignScalar st1 "company_short_name" (Val.s "Unknown")
  let st3 :=
    match detected_columns.currency with
    | some c => assignSeries st2 "currency" ((getCol df c).map cellToVal)
    | none => assignScalar st2 "currency" (Val.s "Unknown")
  match detected_columns.price with
  | some c => assignSeries st3 "price" ((getCol df c).map toNumericVal)
  | none => assignScalar st3 "price" Val.na

/-! ## File pipeline (`utils.process_file`, post-parse stages) -/

inductive PErr
  | emptyFile
  | schemaFail
deriving DecidableEq

instance {ε α : Type} [DecidableEq ε] [DecidableEq α] : DecidableEq (Except ε α) :=
  fun a b =>
    match a, b with
    | Except.error e, Except.error f =>
      if h : e = f then isTrue (by rw [h]) else isFalse (fun hh => h (Except.error.inj hh))
    | Except.error _, Except.ok _ => isFalse (fun h => Except.noConfusion h)
    | Except.ok _, Except.error _ => isFalse (fun h => Except.noConfusion h)
    | Except.ok x, Except.ok y =>
      if h : x = y then isTrue (by rw [h]) else isFalse (fun hh => h (Except.ok.inj hh))

/-- One `df.iterrows()` row. -/
def rowAt (df : DataFrame) (i : ℕ) : List (Option String) :=
  df.cols.map (fun c => c.cells.getD i none)

/-- Indices of the rows `is_header_row` keeps. -/
def keptIndices (df : DataFrame) : List ℕ :=
  (List.range df.nrows).filter (fun i => !is_header_row (rowAt df i))

/-- `df.drop(rows_to_drop).reset_index(drop=True)`. -/
def dropHeaderRows (df : DataFrame) : DataFrame :=
  ⟨(keptIndices df).length,
   df.cols.map (fun c =>
     ⟨c.name, c.numericDtype, (keptIndices df).map (fun i => c.cells.getD i none)⟩)⟩

/-- Number of roles `detect_columns` left undetected (the
`missing_columns` list of `process_file`). -/
def countUndetected (d : Detected) : ℕ :=
  [d.full_name, d.short_name, d.currency, d.price].countP Option.isNone

/-- `utils.process_file` from the header-row scan on (the parse stage is an
external collaborator; an initially empty frame fails the same emptiness
check the source applies before filtering). -/
def process_parsed (df : DataFrame) : Except PErr BuildState :=
  if (dropHeaderRows df).nrows = 0 then Except.error PErr.emptyFile
  else if 2 < countUndetected (detect_columns (dropHeaderRows df)) then
    Except.error PErr.schemaFail
  else
    Except.ok (standardize_dataframe (dropHeaderRows df)
      (detect_columns (dropHeaderRows df)))

/-! ## Persistence (`database.save_invoice_data` / `init_db`)

The `invoices` table is keyed `UNIQUE(session_id)`; SQLite enforces
uniqueness only between non-NULL values, so a row inserted without a
`session_id` column never conflicts.  `save_invoice_data` filters the
frame's columns to the table's and inserts row by row, counting an
`IntegrityError` — or any other per-row `sqlite3.Error` — as a skip. -/

inductive InsertOutcome
  | inserted
  | integrityError
  | otherDbError
deriving DecidableEq

/-- The store: the non-NULL `session_id` keys present, plus the row count. -/
structure DbState where
  sessionKeys : List String
  rowCount : ℕ
deriving DecidableEq

def dbEmpty : DbState := ⟨[], 0⟩

/-- The column list of the `invoices` table (without the autoincrement id),
as enumerated in `save_invoice_data`. -/
def table_columns : List String :=
  ["evse_id", "session_id", "currency", "price", "file_name", "processed_date"]

/-- Columns of the frame handed to the store: the standardized columns plus
`file_name` and `processed_date`. -/
def outputColumns (st : BuildState) : List String :=
  st.cols.map Prod.fst ++ ["file_name", "processed_date"]

/-- `df_filtered`'s columns: table columns present in the frame. -/
def filteredColumns (st : BuildState) : List String :=
  table_columns.filter (fun c => (outputColumns st).contains c)

/-- The `session_id` value the INSERT binds for row `i`: NULL unless the
filtered frame has a `session_id` column with a string value there. -/
def rowSessionValue (st : BuildState) (i : ℕ) : Option String :=
  if (filteredColumns st).contains "session_id" then
    match ((colVals st "session_id").getD []).getD i Val.na with
    | Val.s v => some v
    | _ => none
  else none

/-- One `cursor.execute` of the prepared INSERT against the
`UNIQUE(session_id)` table. -/
def sqliteInsert (db : DbState) (key : Option String) : InsertOutcome × DbState :=
  match key with
  | none => (InsertOutcome.inserted, ⟨db.sessionKeys, db.rowCount + 1⟩)
  | some s =>
    if db.sessionKeys.contains s then (InsertOutcome.integrityError, db)
    else (InsertOutcome.inserted, ⟨s :: db.sessionKeys, db.rowCount + 1⟩)

/-- The insert loop of `save_invoice_data`, generic in the per-row execute
(`sqlite3` may also fail with other errors; both `except` arms count a
skip). The accumulator is `(inserted_count, skipped_count, store)`. -/
def saveLoop (exec : DbState → Option String → InsertOutcome × DbState)
    (st : BuildState) : List ℕ → ℕ × ℕ × DbState → ℕ × ℕ × DbState
  | [], acc => acc
  | i :: rest, acc =>
    match exec acc.2.2 (rowSessionValue st i) with
    | (InsertOutcome.inserted, db2) => saveLoop exec st rest (acc.1 + 1, acc.2.1, db2)
    | (_, db2) => saveLoop exec st rest (acc.1, acc.2.1 + 1, db2)

def saveRows (exec : DbState → Option String → InsertOutcome × DbState)
    (st : BuildState) (db : DbState) : ℕ × ℕ × DbState :=
  saveLoop exec st (List.range st.nrows) (0, 0, db)

/-- `database.save_invoice_data` with the real SQLite collaborator. -/
def save_invoice_data (st : BuildState) (db : DbState) : ℕ × ℕ × DbState :=
  saveRows sqliteInsert st db

/-! ## Encoding/delimiter sniffer (`utils.detect_encoding_and_delimiter`)

Bytes are naturals below 256; decoded text is a list of code points.  The
`csv.Sniffer` heuristic is an external stdlib collaborator, abstracted as a
function returning the detected delimiter or `none` for a raised
`csv.Error`. -/

/-- UTF-8 decoding (strict, as Python `bytes.decode('utf-8')`): rejects
continuation-byte errors, overlong forms, surrogates and values past
`0x10FFFF`. -/
def utf8Decode : List ℕ → Option (List ℕ)
  | [] => some []
  | b :: rest =>
    if b ≤ 0x7F then (utf8Decode rest).map (fun t => b :: t)
    else if 0xC2 ≤ b && b ≤ 0xDF then
      match rest with
      | c1 :: r2 =>
        if 0x80 ≤ c1 && c1 ≤ 0xBF then
          (utf8Decode r2).map (fun t => ((b - 0xC0) * 64 + (c1 - 0x80)) :: t)
        else none
      | [] => none
    else if 0xE0 ≤ b && b ≤ 0xEF then
      match rest with
      | c1 :: c2 :: r3 =>
        if (0x80 ≤ c1 && c1 ≤ 0xBF) && (0x80 ≤ c2 && c2 ≤ 0xBF)
            && !(b = 0xE0 && c1 < 0xA0) && !(b = 0xED && 0xA0 ≤ c1) then
          (utf8Decode r3).map (fun t =>
            ((b - 0xE0) * 4096 + (c1 - 0x80) * 64 + (c2 - 0x80)) :: t)
        else none
      | _ => none
    else if 0xF0 ≤ b && b ≤ 0xF4 then
      match rest with
      | c1 :: c2 :: c3 :: r4 =>
        if (0x80 ≤ c1 && c1 ≤ 0xBF) && (0x80 ≤ c2 && c2 ≤ 0xBF)
            && (0x80 ≤ c3 && c3 ≤ 0xBF)
            && !(b = 0xF0 && c1 < 0x90) && !(b = 0xF4 && 0x90 ≤ c1) then
          (utf8Decode r4).map (fun t =>
            ((b - 0xF0) * 262144 + (c1 - 0x80) * 4096 + (c2 - 0x80) * 64
              + (c3 - 0x80)) :: t)
        else none
      | _ => none
    else none

/-- The Windows-1252 mapping for `0x80`–`0x9F` (five bytes are undefined
and make the decode fail). -/
def cp1252Upper (b : ℕ) : Option ℕ :=
  if b = 0x80 then some 0x20AC else if b = 0x82 then some 0x201A
  else if b = 0x83 then some 0x0192 else if b = 0x84 then some 0x201E
  else if b = 0x85 then some 0x2026 else if b = 0x86 then some 0x2020
  else if b = 0x87 then some 0x2021 else if b = 0x88 then some 0x02C6
  else if b = 0x89 then some 0x2030 else if b = 0x8A then some 0x0160
  else if b = 0x8B then some 0x2039 else if b = 0x8C then some 0x0152
  else if b = 0x8E then some 0x017D else if b = 0x91 then some 0x2018
  else if b = 0x92 then some 0x2019 else if b = 0x93 then some 0x201C
  else if b = 0x94 then some 0x201D else if b = 0x95 then some 0x2022
  else if b = 0x96 then some 0x2013 else if b = 0x97 then some 0x2014
  else if b = 0x98 then some 0x02DC else if b = 0x99 then some 0x2122
  else if b = 0x9A then some 0x0161 else if b = 0x9B then some 0x203A
  else if b = 0x9C then some 0x0153 else if b = 0x9E then some 0x017E
  else if b = 0x9F then some 0x0178 else none

def cp1252DecodeByte (b : ℕ) : Option ℕ :=
  if b < 0x80 || 0xA0 ≤ b then some b else cp1252Upper b

/-- `file_content.decode(encoding)` for the four encodings the source
tries. `latin1` and `iso-8859-1` accept every byte. -/
def decodeWith (encoding : String) (content : List ℕ) : Option (List ℕ) :=
  if encoding = "utf-8" then utf8Decode content
  else if encoding = "latin1" || encoding = "iso-8859-1" then some content
  else if encoding = "cp1252" then content.mapM cp1252DecodeByte
  else none

/-- The fixed encoding shortlist, in source order. -/
def encodingsList : List String := ["utf-8", "latin1", "iso-8859-1", "cp1252"]

/-- The `for encoding in encodings` loop: first encoding that decodes and
whose first 4096 decoded characters the sniffer accepts; `none` when every
iteration hits the `except (UnicodeDecodeError, csv.Error)` arm. -/
def sniffLoop (sniff : List ℕ → Option Char) (content : List ℕ) :
    List String → Option (String × Char)
  | [] => none
  | e :: es =>
    match decodeWith e content with
    | none => sniffLoop sniff content es
    | some s =>
      match sniff (s.take 4096) with
      | some d => some (e, d)
      | none => sniffLoop sniff content es

/-- `utils.detect_encoding_and_delimiter`. -/
def detect_encoding_and_delimiter (sniff : List ℕ → Option Char) (content : List ℕ) :
    String × Char :=
  (sniffLoop sniff content encodingsList).getD ("utf-8", ',')

/-! ## Verification vocabulary

Distinguishing characters for the header-keyword regex: every keyword of
the header regex contains one of these (lowercase) characters, while no
string accepted by the `float()` grammar — whose letters come only from
`inf`/`infinity`/`nan`/`e`/`E` plus digits, sign, dot, underscore and
whitespace — contains any of them in any case. -/

def badChars : List Char := ['m', 'u', 'p', 'l', 'v', 'd']

def goodCh (c : Char) : Bool := !badChars.contains (lowerCh c)

/-! ## Spec-side column rules (for the standardizer refinement claim)

These three definitions transcribe the specification's words for the
standardizer's per-role rules (copy a resolved column; derive the short
name per-row from the full-name column when unresolved; default currency
to the literal string `"Unknown"` and price to missing), to be compared
with `standardize_dataframe` as translated from the source. -/

def specShortCol (df : DataFrame) (det : Detected) (f : String) : List Val :=
  match det.short_name with
  | some g => (getCol df g).map cellToVal
  | none => ((getCol df f).map cellToVal).map derivedShortVal

def specCurrencyCol (df : DataFrame) (det : Detected) : List Val :=
  match det.currency with
  | some g => (getCol df g).map cellToVal
  | none => List.replicate df.nrows (Val.s "Unknown")

def specPriceCol (df : DataFrame) (det : Detected) : List Val :=
  match det.price with
  | some g => (getCol df g).map toNumericVal
  | none => List.replicate df.nrows Val.na

/-! ## Concrete frames used in the standardizer and persistence examples -/

/-- A two-row table whose only column resolves to the short-name role,
leaving the full-name role unresolved. -/
def exC3df : DataFrame := ⟨2, [⟨"Code", false, [some "AB", some "CD"]⟩]⟩

/-- A role map with the full-name role unresolved and the short-name role
resolved (two of four roles undetected, which the pipeline accepts). -/
def exC3det : Detected := ⟨none, some "Code", none, none⟩

/-- A one-row table resolving full name, short name and price. -/
def exC3wdf : DataFrame :=
  ⟨1, [⟨"Name", false, [some "Acme Corp"]⟩,
       ⟨"Code", false, [some "AC"]⟩,
       ⟨"Price", true, [some "3.5"]⟩]⟩

def exC3wdet : Detected := ⟨some "Name", some "Code", none, some "Price"⟩

/-- A one-row invoice file that the pipeline processes successfully. -/
def exC7df : DataFrame :=
  ⟨1, [⟨"Company Name", false, [some "Acme Inc"]⟩,
       ⟨"Price", true, [some "10.5"]⟩]⟩

/-- Its standardized output, as produced by the post-parse pipeline. -/
def exC7std : BuildState :=
  standardize_dataframe (dropHeaderRows exC7df)
    (detect_columns (dropHeaderRows exC7df))

/-! # Theorems -/

/-! ## Bridges between the computable rational operations and `ℚ` -/

theorem qadd_eq (a b : ℚ) : qadd a b = a + b := (Rat.add_def' a b).symm

theorem qmul_eq (a b : ℚ) : qmul a b = a * b := (Rat.mul_eq_mkRat a b).symm

theorem qdiv_eq (a b : ℚ) : qdiv a b = a / b := (Rat.div_def' a b).symm

/-! ## Generic helper lemmas -/

theorem firstSome_eq_some {α β : Type} (f : α → Option β) :
    ∀ l : List α, ∀ b, firstSome f l = some b → ∃ a ∈ l, f a = some b := by
  intro l
  induction l with
  | nil => intro b h; simp [firstSome] at h
  | cons a as ih =>
    intro b h
    unfold firstSome at h
    cases hfa : f a with
    | some c =>
      rw [hfa] at h
      exact ⟨a, List.mem_cons_self a as, hfa.trans h⟩
    | none =>
      rw [hfa] at h
      obtain ⟨x, hx, hfx⟩ := ih b h
      exact ⟨x, List.mem_cons_of_mem a hx, hfx⟩

theorem pickBestGo_mem : ∀ (l : List (String × ℚ)) (b : String × ℚ),
    pickBestGo b l ∈ b :: l := by
  intro l
  induction l with
  | nil => intro b; simp [pickBestGo]
  | cons x xs ih =>
    intro b
    unfold pickBestGo
    have hmem := ih (if b.2 < x.2 then x else b)
    by_cases hc : b.2 < x.2
    · rw [if_pos hc] at hmem ⊢
      rcases List.mem_cons.mp hmem with h | h
      · rw [h]; simp
      · simp [List.mem_cons_of_mem, h]
    · rw [if_neg hc] at hmem ⊢
      rcases List.mem_cons.mp hmem with h | h
      · rw [h]; simp
      · simp [List.mem_cons_of_mem, h]

theorem pickBest_mem (l : List (String × ℚ)) (x : String × ℚ)
    (h : pickBest l = some x) : x ∈ l := by
  match l with
  | [] => simp [pickBest] at h
  | y :: ys =>
    unfold pickBest at h
    have := pickBestGo_mem ys y
    rw [Option.some_inj.mp h] at this
    exact this

/-- A column found by name equals the unique column carrying that name. -/
theorem find?_name_unique : ∀ (cols : List Column) (col : Column),
    col ∈ cols → (cols.map Column.name).Nodup →
    cols.find? (fun c => c.name == col.name) = some col := by
  intro cols
  induction cols with
  | nil => intro col h; simp at h
  | cons x rest ih =>
    intro col hmem hnodup
    simp only [List.map_cons, List.nodup_cons] at hnodup
    rcases List.mem_cons.mp hmem with rfl | hmem2
    · simp [List.find?]
    · have hne : x.name ≠ col.name := by
        intro he
        exact hnodup.1 (he ▸ List.mem_map_of_mem Column.name hmem2)
      rw [List.find?]
      have : (x.name == col.name) = false := beq_eq_false_iff_ne.mpr hne
      rw [this]
      exact ih col hmem2 hnodup.2

theorem getCol_of_mem (df : DataFrame) (col : Column)
    (hmem : col ∈ df.cols) (hnodup : (df.cols.map Column.name).Nodup) :
    getCol df col.name = col.cells := by
  unfold getCol
  rw [find?_name_unique df.cols col hmem hnodup]

/-! ## C1 — header-row classification rule -/

/-- C1: a parsed row is classified as a header iff it has a non-empty cell
and `keyword_ratio > 0.3` or `nonnumeric_ratio > 0.7`, both ratios taken
over the row's non-empty cells (keyword hits against the fixed
case-insensitive regex, numeric parsing with comma-as-decimal tolerance);
a row with zero non-empty cells is never a header. -/
theorem claim_C1_header_rule (row : List (Option String)) :
    is_header_row row = true ↔
      (0 < (headerCounts row).2.2 ∧
        ((3 : ℚ)/10 < ((headerCounts row).1 : ℚ) / ((headerCounts row).2.2 : ℚ) ∨
         (7 : ℚ)/10 < ((headerCounts row).2.1 : ℚ) / ((headerCounts row).2.2 : ℚ))) := by
  unfold is_header_row
  by_cases h : (headerCounts row).2.2 = 0
  · simp [h]
  · rw [if_neg h]
    simp only [qdiv_eq, decide_eq_true_eq]
    constructor
    · intro hor
      exact ⟨Nat.pos_of_ne_zero h, hor⟩
    · intro hand
      exact hand.2

/-! ## C2 — schema-detection failure threshold -/

/-- C2: once a table reaches classification (it still has rows after
header filtering), the classifiers themselves cannot fail, and the
pipeline raises the schema-detection error exactly when more than 2 of the
4 roles are undetected; with at most 2 undetected it proceeds to
standardization. -/
theorem claim_C2_schema_threshold (df : DataFrame)
    (hne : (dropHeaderRows df).nrows ≠ 0) :
    (process_parsed df = Except.error PErr.schemaFail ↔
      2 < countUndetected (detect_columns (dropHeaderRows df))) ∧
    (countUndetected (detect_columns (dropHeaderRows df)) ≤ 2 →
      process_parsed df =
        Except.ok (standardize_dataframe (dropHeaderRows df)
          (detect_columns (dropHeaderRows df)))) := by
  unfold process_parsed
  rw [if_neg hne]
  constructor
  · by_cases h : 2 < countUndetected (detect_columns (dropHeaderRows df))
    · simp [h]
    · rw [if_neg h]
      constructor
      · intro he
        exact Except.noConfusion he
      · intro hlt
        exact absurd hlt h
  · intro h
    rw [if_neg (by omega)]

/-- Witness for C2 at a one-column numeric table: only the price role is
detected (3 of 4 undetected), so the pipeline fails with the schema error. -/
theorem claim_C2_schema_threshold_witness :
    (dropHeaderRows ⟨1, [⟨"zzz", true, [some "5"]⟩]⟩).nrows ≠ 0 ∧
    process_parsed ⟨1, [⟨"zzz", true, [some "5"]⟩]⟩ = Except.error PErr.schemaFail ∧
    countUndetected (detect_columns (dropHeaderRows ⟨1, [⟨"zzz", true, [some "5"]⟩]⟩)) = 3 :=
  ⟨by decide,
   (claim_C2_schema_threshold ⟨1, [⟨"zzz", true, [some "5"]⟩]⟩ (by decide)).1.mpr (by decide),
   by decide⟩

/-! ## C6 — price name tier requires the numeric-column check -/

/-- C6: the price classifier's name tier only returns a column that also
passes `is_numeric_column` (at least 50% of its values convert to
numbers); a label match alone is never returned by the name tier. -/
theorem claim_C6_price_name_gate (df : DataFrame) (c : String)
    (hnodup : (df.cols.map Column.name).Nodup)
    (h : priceNameTier df = some c) :
    is_numeric_column (getCol df c) = true := by
  unfold priceNameTier at h
  obtain ⟨p, _, hp⟩ := firstSome_eq_some _ pricePats c h
  rw [Option.map_eq_some'] at hp
  obtain ⟨col, hfind, hname⟩ := hp
  have hpred := List.find?_some hfind
  have hmem := List.mem_of_find?_eq_some hfind
  rw [Bool.and_eq_true] at hpred
  rw [← hname, getCol_of_mem df col hmem hnodup]
  exact hpred.2

/-- Witness for C6: a column literally labelled `Price` whose single value
parses, so the name tier fires and the numeric check holds. -/
theorem claim_C6_price_name_gate_witness :
    priceNameTier ⟨1, [⟨"Price", true, [some "10.5"]⟩]⟩ = some "Price" ∧
    is_numeric_column (getCol ⟨1, [⟨"Price", true, [some "10.5"]⟩]⟩ "Price") = true :=
  ⟨by decide,
   claim_C6_price_name_gate ⟨1, [⟨"Price", true, [some "10.5"]⟩]⟩ "Price"
     (by decide) (by decide)⟩

/-! ## C10 — save partitions every submitted row into inserted or skipped -/

/-- Every tail of the insert loop keeps `inserted + skipped` equal to the
number of rows consumed. -/
theorem saveLoop_partition (exec : DbState → Option String → InsertOutcome × DbState)
    (st : BuildState) :
    ∀ (l : List ℕ) (acc : ℕ × ℕ × DbState),
      (saveLoop exec st l acc).1 + (saveLoop exec st l acc).2.1 =
        acc.1 + acc.2.1 + l.length := by
  intro l
  induction l with
  | nil => intro acc; simp [saveLoop]
  | cons i rest ih =>
    intro acc
    unfold saveLoop
    cases hr : exec acc.2.2 (rowSessionValue st i) with
    | mk outcome db2 =>
      cases outcome
      all_goals simp only []
      · rw [ih (acc.1 + 1, acc.2.1, db2)]
        simp only [List.length_cons]
        omega
      · rw [ih (acc.1, acc.2.1 + 1, db2)]
        simp only [List.length_cons]
        omega
      · rw [ih (acc.1, acc.2.1 + 1, db2)]
        simp only [List.length_cons]
        omega

/-- C10: for every per-row database behaviour (success, uniqueness
violation, or any other database error) the save loop returns counts with
`inserted + skipped` equal to the number of rows submitted, and no per-row
error escapes (each row lands in exactly one of the two `except`-counted
buckets). -/
theorem claim_C10_save_partition
    (exec : DbState → Option String → InsertOutcome × DbState)
    (st : BuildState) (db : DbState) :
    (saveRows exec st db).1 + (saveRows exec st db).2.1 = st.nrows := by
  unfold saveRows
  rw [saveLoop_partition exec st (List.range st.nrows) (0, 0, db)]
  simp

/-! ## C9 — encoding/delimiter sniffing loop and fallback -/

/-- The loop returns nothing iff every encoding either fails to decode or
has its sniff throw. -/
theorem sniffLoop_none_iff (sniff : List ℕ → Option Char) (content : List ℕ) :
    ∀ es : List String,
      sniffLoop sniff content es = none ↔
        ∀ e ∈ es, decodeWith e content = none ∨
          ∀ s, decodeWith e content = some s → sniff (s.take 4096) = none := by
  intro es
  induction es with
  | nil => simp [sniffLoop]
  | cons e rest ih =>
    unfold sniffLoop
    cases hd : decodeWith e content with
    | none =>
      simp only [List.mem_cons]
      constructor
      · intro h x hx
        rcases hx with rfl | hx
        · exact Or.inl hd
        · exact (ih.mp h) x hx
      · intro h
        exact ih.mpr (fun x hx => h x (Or.inr hx))
    | some s =>
      cases hsn : sniff (s.take 4096) with
      | some d =>
        simp only [hsn, List.mem_cons]
        constructor
        · intro h
          exact Option.noConfusion h
        · intro h
          rcases h e (Or.inl rfl) with h1 | h1
          · rw [hd] at h1; exact Option.noConfusion h1
          · rw [h1 s hd] at hsn; exact Option.noConfusion hsn
      | none =>
        simp only [hsn, List.mem_cons]
        constructor
        · intro h x hx
          rcases hx with rfl | hx
          · right
            intro t ht
            rw [hd] at ht
            rw [← Option.some_inj.mp ht]
            exact hsn
          · exact (ih.mp h) x hx
        · intro h
          exact ih.mpr (fun x hx => h x (Or.inr hx))

/-- C9: the sniffer tries exactly `utf-8`, `latin1`, `iso-8859-1`,
`cp1252` in order; it returns the fallback `("utf-8", ',')` exactly when
every encoding fails to decode or has delimiter sniffing throw; when UTF-8
decodes and sniffing succeeds on the first 4096 decoded characters, that
result is returned.  Totality of `detect_encoding_and_delimiter` embeds
"it never raises". -/
theorem claim_C9_sniffer (sniff : List ℕ → Option Char) (content : List ℕ) :
    (sniffLoop sniff content encodingsList = none ↔
      ∀ e ∈ ["utf-8", "latin1", "iso-8859-1", "cp1252"],
        decodeWith e content = none ∨
          ∀ s, decodeWith e content = some s → sniff (s.take 4096) = none) ∧
    (sniffLoop sniff content encodingsList = none →
      detect_encoding_and_delimiter sniff content = ("utf-8", ',')) ∧
    (∀ s d, utf8Decode content = some s → sniff (s.take 4096) = some d →
      detect_encoding_and_delimiter sniff content = ("utf-8", d)) := by
  refine ⟨sniffLoop_none_iff sniff content encodingsList, ?_, ?_⟩
  · intro h
    unfold detect_encoding_and_delimiter
    rw [h]
    rfl
  · intro s d hs hd
    have hdec : decodeWith "utf-8" content = some s := by
      unfold decodeWith
      rw [if_pos rfl]
      exact hs
    unfold detect_encoding_and_delimiter encodingsList sniffLoop
    simp only [hdec, hd]
    rfl

/-- Witness for C9: a sniffer that always throws forces the fallback pair
on an ASCII byte, and a sniffer that answers `;` is propagated. -/
theorem claim_C9_sniffer_witness :
    detect_encoding_and_delimiter (fun _ => none) [65] = ("utf-8", ',') ∧
    detect_encoding_and_delimiter (fun _ => some ';') [65] = ("utf-8", ';') :=
  ⟨(claim_C9_sniffer (fun _ => none) [65]).2.1 (by decide),
   (claim_C9_sniffer (fun _ => some ';') [65]).2.2 [65] ';' (by decide) (by decide)⟩

/-! ## C5 — full-name / short-name mutual exclusion

The content-scoring tier of `detect_short_company_name` does exclude the
full-name column, but its name-pattern tier does not: a single column
whose label matches both a full-name pattern and a short-name pattern is
returned for both roles. -/

/-- C5 counterexample: on a table whose only column is labelled
`Company Short Name`, `detect_columns` assigns that same column to both
the full-name role (via the bare `company` pattern) and the short-name
role (via the `short\s*(?:company)*\s*name` pattern), refuting the claim
that the two classifiers never resolve to the same column. -/
theorem claim_C5_counterexample :
    (detect_columns ⟨1, [⟨"Company Short Name", false, [some "Acme"]⟩]⟩).full_name =
        some "Company Short Name" ∧
    (detect_columns ⟨1, [⟨"Company Short Name", false, [some "Acme"]⟩]⟩).short_name =
        some "Company Short Name" := by
  decide

/-- C5 amended: the exclusion holds for the content-scoring tier only —
whenever the short-name name-pattern tier finds nothing, the short-name
detector never returns the column assigned to the full-name role. -/
theorem claim_C5_amended (df : DataFrame) (f : String)
    (hname : detectByName shortNamePats df = none) :
    detect_short_company_name df (some f) ≠ some f := by
  intro hcontra
  unfold detect_short_company_name at hcontra
  simp only [hname] at hcontra
  unfold shortNameContent at hcontra
  rcases Option.bind_eq_some.mp hcontra with ⟨x, hpick, hx⟩
  have hmem := pickBest_mem _ x hpick
  rw [List.mem_filterMap] at hmem
  obtain ⟨c, _, hcx⟩ := hmem
  by_cases hef : some c.name = some f
  · rw [if_pos hef] at hcx
    exact Option.noConfusion hcx
  · rw [if_neg hef] at hcx
    by_cases hnum : (sampleStrs c.cells 10).all (fun v => is_numeric v) = true
    · rw [if_pos hnum] at hcx
      exact Option.noConfusion hcx
    · rw [if_neg hnum] at hcx
      have hx1 : c.name = x.1 := congrArg Prod.fst (Option.some_inj.mp hcx)
      by_cases h2 : 2 < x.2
      · rw [if_pos h2] at hx
        exact hef (by rw [hx1, Option.some_inj.mp hx])
      · rw [if_neg h2] at hx
        exact Option.noConfusion hx

/-- Witness for C5 amended: a table whose only column has an
unsuggestive label, so the name tier fails and the content tier returns
that column — which differs from any separately supplied full-name column. -/
theorem claim_C5_amended_witness :
    detectByName shortNamePats ⟨2, [⟨"aaa", false, [some "AB", some "CD"]⟩]⟩ = none ∧
    detect_short_company_name ⟨2, [⟨"aaa", false, [some "AB", some "CD"]⟩]⟩
        (some "bbb") ≠ some "bbb" :=
  ⟨by decide,
   claim_C5_amended ⟨2, [⟨"aaa", false, [some "AB", some "CD"]⟩]⟩ "bbb" (by decide)⟩

/-! ## Lemmas about `splitWs`, `pyStrip` and the cleaning pipeline -/

theorem splitWs_words_noWs : ∀ l : List Char, ∀ w ∈ splitWs l, ∀ c ∈ w,
    isWsCh c = false := by
  intro l
  induction l with
  | nil => simp [splitWs]
  | cons c rest ih =>
    intro w hw d hd
    unfold splitWs at hw
    by_cases hc : isWsCh c = true
    · rw [if_pos hc] at hw
      exact ih w hw d hd
    · rw [if_neg hc] at hw
      cases hsp : splitWs rest with
      | nil =>
        simp only [hsp] at hw
        rcases List.mem_singleton.mp hw with rfl
        rcases List.mem_singleton.mp hd with rfl
        exact Bool.not_eq_true _ ▸ (by simpa using hc)
      | cons w0 ws =>
        simp only [hsp] at hw
        by_cases hd0 : isWsCh (rest.headD ' ') = true
        · rw [if_pos hd0] at hw
          rcases List.mem_cons.mp hw with rfl | hw2
          · rcases List.mem_singleton.mp hd with rfl
            simpa using hc
          · exact ih w (hsp ▸ hw2) d hd
        · rw [if_neg hd0] at hw
          rcases List.mem_cons.mp hw with rfl | hw2
          · rcases List.mem_cons.mp hd with rfl | hd2
            · simpa using hc
            · exact ih w0 (hsp ▸ List.mem_cons_self w0 ws) d hd2
          · exact ih w (hsp ▸ List.mem_cons_of_mem w0 hw2) d hd

theorem splitWs_words_ne_nil : ∀ l : List Char, ∀ w ∈ splitWs l, w ≠ [] := by
  intro l
  induction l with
  | nil => simp [splitWs]
  | cons c rest ih =>
    intro w hw
    unfold splitWs at hw
    by_cases hc : isWsCh c = true
    · rw [if_pos hc] at hw
      exact ih w hw
    · rw [if_neg hc] at hw
      cases hsp : splitWs rest with
      | nil =>
        simp only [hsp] at hw
        rcases List.mem_singleton.mp hw with rfl
        simp
      | cons w0 ws =>
        simp only [hsp] at hw
        by_cases hd0 : isWsCh (rest.headD ' ') = true
        · rw [if_pos hd0] at hw
          rcases List.mem_cons.mp hw with rfl | hw2
          · simp
          · exact ih w (hsp ▸ hw2)
        · rw [if_neg hd0] at hw
          rcases List.mem_cons.mp hw with rfl | hw2
          · simp
          · exact ih w (hsp ▸ List.mem_cons_of_mem w0 hw2)

theorem splitWs_eq_nil_iff : ∀ l : List Char,
    splitWs l = [] ↔ ∀ c ∈ l, isWsCh c = true := by
  intro l
  induction l with
  | nil => simp [splitWs]
  | cons c rest ih =>
    unfold splitWs
    by_cases hc : isWsCh c = true
    · rw [if_pos hc]
      simp only [List.mem_cons]
      constructor
      · intro h d hd
        rcases hd with rfl | hd
        · exact hc
        · exact (ih.mp h) d hd
      · intro h
        exact ih.mpr (fun d hd => h d (Or.inr hd))
    · rw [if_neg hc]
      constructor
      · intro h
        exfalso
        cases hsp : splitWs rest with
        | nil => simp only [hsp] at h; exact List.noConfusion h
        | cons w0 ws =>
          simp only [hsp] at h
          by_cases hd0 : isWsCh (rest.headD ' ') = true
          · rw [if_pos hd0] at h; exact List.noConfusion h
          · rw [if_neg hd0] at h; exact List.noConfusion h
      · intro h
        exact absurd (h c (List.mem_cons_self c rest)) hc

theorem splitWs_of_noWs : ∀ l : List Char, l ≠ [] →
    (∀ c ∈ l, isWsCh c = false) → splitWs l = [l] := by
  intro l
  induction l with
  | nil => intro h; exact absurd rfl h
  | cons c rest ih =>
    intro _ hno
    have hc : isWsCh c = false := hno c (List.mem_cons_self c rest)
    unfold splitWs
    rw [if_neg (by simp [hc])]
    cases rest with
    | nil => simp [splitWs]
    | cons e rest2 =>
      have hnor : ∀ d ∈ e :: rest2, isWsCh d = false :=
        fun d hd => hno d (List.mem_cons_of_mem c hd)
      have hr : splitWs (e :: rest2) = [e :: rest2] := ih (by simp) hnor
      simp only [hr]
      have he : isWsCh e = false := hnor e (List.mem_cons_self e rest2)
      simp [he]

theorem splitWs_length_le : ∀ l : List Char, (splitWs l).length ≤ l.length := by
  intro l
  induction l with
  | nil => simp [splitWs]
  | cons c rest ih =>
    unfold splitWs
    by_cases hc : isWsCh c = true
    · rw [if_pos hc]
      simp only [List.length_cons]
      omega
    · rw [if_neg hc]
      cases hsp : splitWs rest with
      | nil => simp [hsp]
      | cons w0 ws =>
        simp only [hsp]
        have hlen : (w0 :: ws).length ≤ rest.length := hsp ▸ ih
        by_cases hd0 : isWsCh (rest.headD ' ') = true
        · rw [if_pos hd0]
          simp only [List.length_cons] at hlen ⊢
          omega
        · rw [if_neg hd0]
          simp only [List.length_cons] at hlen ⊢
          omega

/-- A string whose first and last characters are not whitespace and which
splits into at most one word contains no whitespace at all. -/
theorem splitWs_single_noWs : ∀ l : List Char,
    (∀ a, l.head? = some a → isWsCh a = false) →
    (∀ a, l.getLast? = some a → isWsCh a = false) →
    (splitWs l).length ≤ 1 → ∀ c ∈ l, isWsCh c = false := by
  intro l
  induction l with
  | nil => simp
  | cons c rest ih =>
    intro hhead hlast hlen d hd
    have hc : isWsCh c = false := hhead c (by simp)
    rcases List.mem_cons.mp hd with rfl | hd2
    · exact hc
    · cases rest with
      | nil => exact absurd hd2 (List.not_mem_nil d)
      | cons e rest2 =>
        have hlaste : ∀ a, (e :: rest2).getLast? = some a → isWsCh a = false := by
          intro a ha
          apply hlast
          rw [List.getLast?_cons_cons]
          exact ha
        unfold splitWs at hlen
        rw [if_neg (by simp [hc])] at hlen
        cases hsp : splitWs (e :: rest2) with
        | nil =>
          exfalso
          have hallws := (splitWs_eq_nil_iff (e :: rest2)).mp hsp
          have hgl : (e :: rest2).getLast? = some ((e :: rest2).getLast (by simp)) :=
            List.getLast?_eq_getLast _ _
          have hmem : (e :: rest2).getLast (by simp) ∈ e :: rest2 := List.getLast_mem _
          have hws := hlaste _ hgl
          rw [hallws _ hmem] at hws
          exact Bool.noConfusion hws
        | cons w0 ws =>
          simp only [hsp] at hlen
          have hheade : isWsCh e = false := by
            by_cases hwe : isWsCh e = true
            · exfalso
              rw [if_pos (by simp only [List.headD_cons]; exact hwe)] at hlen
              simp at hlen
            · simpa using hwe
          rw [if_neg (by simp only [List.headD_cons]; simp [hheade])] at hlen
          simp only [List.length_cons] at hlen
          have hws0 : ws = [] := by
            cases ws with
            | nil => rfl
            | cons a b => simp at hlen
          apply ih
          · intro a ha
            rw [List.head?_cons] at ha
            rw [← Option.some_inj.mp ha]
            exact hheade
          · exact hlaste
          · rw [hsp, hws0]; simp
          · exact hd2

/-- Removing a prefix whose elements satisfy `p` cannot introduce members:
anything in `l` is in `l.dropWhile p` or satisfies `p`. -/
theorem mem_dropWhile_or (p : Char → Bool) (l : List Char) :
    ∀ c ∈ l, c ∈ l.dropWhile p ∨ p c = true := by
  intro c hc
  have hsplit : l.takeWhile p ++ l.dropWhile p = l := List.takeWhile_append_dropWhile p l
  rw [← hsplit] at hc
  rcases List.mem_append.mp hc with h | h
  · exact Or.inr (List.mem_takeWhile_imp h)
  · exact Or.inl h

theorem pyStrip_mem_or_ws (l : List Char) :
    ∀ c ∈ l, c ∈ pyStrip l ∨ isWsCh c = true := by
  intro c hc
  unfold pyStrip
  rcases mem_dropWhile_or isWsCh l c hc with h | h
  · rcases mem_dropWhile_or isWsCh (l.dropWhile isWsCh).reverse c
        (List.mem_reverse.mpr h) with h2 | h2
    · exact Or.inl (List.mem_reverse.mpr h2)
    · exact Or.inr h2
  · exact Or.inr h

theorem dropWhile_eq_self_of (p : Char → Bool) (l : List Char)
    (h : ∀ c ∈ l, p c = false) : l.dropWhile p = l := by
  cases l with
  | nil => rfl
  | cons c rest =>
    rw [List.dropWhile_cons, if_neg]
    rw [h c (List.mem_cons_self c rest)]
    simp

theorem pyStrip_eq_self (l : List Char) (h : ∀ c ∈ l, isWsCh c = false) :
    pyStrip l = l := by
  unfold pyStrip
  rw [dropWhile_eq_self_of isWsCh l h]
  rw [dropWhile_eq_self_of isWsCh l.reverse (fun c hc => h c (List.mem_reverse.mp hc))]
  exact List.reverse_reverse l

theorem pyStrip_getLast_not_ws (l : List Char) :
    ∀ a, (pyStrip l).getLast? = some a → isWsCh a = false := by
  intro a ha
  unfold pyStrip at ha
  rw [List.getLast?_reverse] at ha
  have := List.head?_dropWhile_not isWsCh (l.dropWhile isWsCh).reverse
  rw [ha] at this
  exact this

theorem pyStrip_head_not_ws (l : List Char) :
    ∀ a, (pyStrip l).head? = some a → isWsCh a = false := by
  intro a ha
  unfold pyStrip at ha
  rw [List.head?_reverse] at ha
  obtain ⟨t, ht⟩ := List.dropWhile_suffix (l := (l.dropWhile isWsCh).reverse) (p := isWsCh)
  have hx : ((l.dropWhile isWsCh).reverse).getLast? = some a := by
    rw [← ht, List.getLast?_append]
    rw [ha]
    rfl
  rw [List.getLast?_reverse] at hx
  have := List.head?_dropWhile_not isWsCh l
  rw [hx] at this
  exact this

theorem pyStrip_length_le (l : List Char) : (pyStrip l).length ≤ l.length := by
  unfold pyStrip
  rw [List.length_reverse]
  calc ((l.dropWhile isWsCh).reverse.dropWhile isWsCh).length
      ≤ (l.dropWhile isWsCh).reverse.length :=
        List.Sublist.length_le (List.dropWhile_sublist _)
    _ = (l.dropWhile isWsCh).length := List.length_reverse _
    _ ≤ l.length := List.Sublist.length_le (List.dropWhile_sublist _)

theorem kwMatchAt_length_le : ∀ (kws : List (List Char)) (l r : List Char),
    kwMatchAt kws l = some r → r.length ≤ l.length := by
  intro kws
  induction kws with
  | nil => intro l r h; simp [kwMatchAt] at h
  | cons kw rest ih =>
    intro l r h
    unfold kwMatchAt at h
    by_cases hm : (icPrefixOf kw l && boundaryAfter (l.drop kw.length)) = true
    · rw [if_pos hm] at h
      rw [← Option.some_inj.mp h]
      simp only [List.length_drop]
      omega
    · rw [if_neg hm] at h
      exact ih l r h

theorem subIdentifiersF_length_le : ∀ (fuel : ℕ) (prevW : Bool) (l : List Char),
    (subIdentifiersF fuel prevW l).length ≤ l.length := by
  intro fuel
  induction fuel with
  | zero => intro prevW l; simp [subIdentifiersF]
  | succ n ih =>
    intro prevW l
    cases l with
    | nil => simp [subIdentifiersF]
    | cons c r =>
      simp only [subIdentifiersF]
      by_cases hp : (!prevW) = true
      · rw [if_pos hp]
        cases hm : kwMatchAt identifierKws (c :: r) with
        | some rest =>
          simp only [hm]
          have h1 := ih true rest
          have h2 := kwMatchAt_length_le identifierKws (c :: r) rest hm
          simp only [List.length_cons] at h2 ⊢
          omega
        | none =>
          simp only [hm, List.length_cons]
          have := ih (isWordCh c) r
          omega
      · rw [if_neg hp]
        simp only [List.length_cons]
        have := ih (isWordCh c) r
        omega

theorem commaSub_length_le : ∀ l : List Char, (commaSub l).length ≤ l.length := by
  intro l
  induction l with
  | nil => simp [commaSub]
  | cons c r ih =>
    unfold commaSub
    by_cases h : (c = ',' && commaTailMatch r) = true
    · rw [if_pos h]; simp
    · rw [if_neg h]
      simp only [List.length_cons]
      omega

theorem cleanName_length_le (t : List Char) : (cleanName t).length ≤ t.length := by
  unfold cleanName subIdentifiers
  calc (pyStrip (commaSub (pyStrip (subIdentifiersF t.length false t)))).length
      ≤ (commaSub (pyStrip (subIdentifiersF t.length false t))).length :=
        pyStrip_length_le _
    _ ≤ (pyStrip (subIdentifiersF t.length false t)).length := commaSub_length_le _
    _ ≤ (subIdentifiersF t.length false t).length := pyStrip_length_le _
    _ ≤ t.length := subIdentifiersF_length_le t.length false t

theorem upperCh_not_ws (c : Char) (h : isWsCh c = false) :
    isWsCh (upperCh c) = false := by
  unfold upperCh
  cases hf : upperPairs.find? (fun p => p.1 == c) with
  | none => simpa using h
  | some p =>
    have hmem := List.mem_of_find?_eq_some hf
    have : ∀ q ∈ upperPairs, isWsCh q.2 = false := by decide
    simpa using this p hmem

theorem acronymOf_length_le (ws : List (List Char)) :
    (acronymOf ws).length ≤ ws.length := by
  unfold acronymOf
  rw [List.length_map]
  exact List.length_filter_le _ ws

theorem acronymOf_length_of_ne_nil (ws : List (List Char))
    (h : ∀ w ∈ ws, w ≠ []) : (acronymOf ws).length = ws.length := by
  unfold acronymOf
  rw [List.length_map]
  rw [List.filter_eq_self.mpr (fun w hw => by simpa using h w hw)]

theorem acronymOf_noWs (ws : List (List Char))
    (h : ∀ w ∈ ws, ∀ c ∈ w, isWsCh c = false) :
    ∀ c ∈ acronymOf ws, isWsCh c = false := by
  intro c hc
  unfold acronymOf at hc
  rw [List.mem_map] at hc
  obtain ⟨w, hw, hwc⟩ := hc
  have hwmem := List.mem_filter.mp hw
  have hne : w ≠ [] := by simpa using hwmem.2
  cases w with
  | nil => exact absurd rfl hne
  | cons a rest =>
    rw [← hwc]
    simp only [List.headD_cons]
    exact upperCh_not_ws a (h _ hwmem.1 a (List.mem_cons_self a rest))

/-! ## String glue -/

theorem mk_toList (s : String) : (⟨s.toList⟩ : String) = s := by
  cases s
  rfl

theorem toList_eq_nil {s : String} (h : s.toList = []) : s = "" := by
  cases s with
  | mk d =>
    simp only [String.toList] at h
    rw [show d = ([] : List Char) from h]

/-! ## Behaviour of `shortFromClean` and `generate_short_name` -/

theorem shortFromClean_noWs (cleaned : List Char)
    (hhead : ∀ a, cleaned.head? = some a → isWsCh a = false)
    (hlast : ∀ a, cleaned.getLast? = some a → isWsCh a = false) :
    ∀ c ∈ (shortFromClean cleaned).toList, isWsCh c = false := by
  intro c hc
  unfold shortFromClean at hc
  by_cases h1 : 1 < (splitWs cleaned).length
  · rw [if_pos h1] at hc
    by_cases h2 : 2 ≤ (acronymOf (splitWs cleaned)).length
    · rw [if_pos h2] at hc
      exact acronymOf_noWs _ (splitWs_words_noWs cleaned) c hc
    · exfalso
      apply h2
      rw [acronymOf_length_of_ne_nil _ (splitWs_words_ne_nil cleaned)]
      omega
  · rw [if_neg h1] at hc
    have hno := splitWs_single_noWs cleaned hhead hlast (by omega)
    by_cases h3 : cleaned.length ≤ 10
    · rw [if_pos h3] at hc
      exact hno c hc
    · rw [if_neg h3] at hc
      exact hno c (List.mem_of_mem_take hc)

theorem shortFromClean_length_le (cleaned : List Char) (hc : cleaned.length ≤ 10) :
    (shortFromClean cleaned).length ≤ 10 := by
  unfold shortFromClean
  by_cases h1 : 1 < (splitWs cleaned).length
  · rw [if_pos h1]
    by_cases h2 : 2 ≤ (acronymOf (splitWs cleaned)).length
    · rw [if_pos h2]
      calc (String.mk (acronymOf (splitWs cleaned))).length
          = (acronymOf (splitWs cleaned)).length := rfl
        _ ≤ (splitWs cleaned).length := acronymOf_length_le _
        _ ≤ cleaned.length := splitWs_length_le cleaned
        _ ≤ 10 := hc
    · rw [if_neg h2, if_pos hc]
      exact hc
  · rw [if_neg h1, if_pos hc]
    exact hc

theorem generate_eq (s : String) :
    generate_short_name (some s) =
      if s = "" then "Unknown" else shortFromClean (cleanName (pyStrip s.toList)) := rfl

theorem generate_noWs (o : Option String) :
    ∀ c ∈ (generate_short_name o).toList, isWsCh c = false := by
  cases o with
  | none => decide
  | some s =>
    rw [generate_eq]
    by_cases hs : s = ""
    · rw [if_pos hs]; decide
    · rw [if_neg hs]
      apply shortFromClean_noWs
      · intro a ha
        unfold cleanName at ha
        exact pyStrip_head_not_ws _ a ha
      · intro a ha
        unfold cleanName at ha
        exact pyStrip_getLast_not_ws _ a ha

theorem generate_length_le (x : String) (h10 : x.length ≤ 10) :
    (generate_short_name (some x)).length ≤ 10 := by
  rw [generate_eq]
  by_cases hs : x = ""
  · rw [if_pos hs]; decide
  · rw [if_neg hs]
    apply shortFromClean_length_le
    calc (cleanName (pyStrip x.toList)).length
        ≤ (pyStrip x.toList).length := cleanName_length_le _
      _ ≤ x.toList.length := pyStrip_length_le _
      _ = x.length := rfl
      _ ≤ 10 := h10

/-! ## C4 — idempotence of short-name derivation on short inputs -/

/-- C4 counterexample: `"Co"` has at most 10 characters, yet derivation is
not idempotent on it: the suffix-stripping empties it
(`derive "Co" = ""`), and deriving the empty string yields `"Unknown"`. -/
theorem claim_C4_counterexample :
    ("Co" : String).length ≤ 10 ∧
    generate_short_name (some (generate_short_name (some "Co"))) ≠
      generate_short_name (some "Co") := by
  decide

/-- C4 amended: for every string of at most 10 characters whose derived
short name is nonempty and is itself left unchanged by the
suffix-keyword/trailing-comma cleaning step, derivation is idempotent:
`derive (derive x) = derive x`.  (The two extra hypotheses are exactly
what the counterexamples `"Co"` — derived value empty — and `"care of"` —
derived acronym `"CO"` is itself a suffix keyword — violate.) -/
theorem claim_C4_amended (x : String) (h10 : x.length ≤ 10)
    (hne : generate_short_name (some x) ≠ "")
    (hfix : cleanName (generate_short_name (some x)).toList =
      (generate_short_name (some x)).toList) :
    generate_short_name (some (generate_short_name (some x))) =
      generate_short_name (some x) := by
  have hnoWs := generate_noWs (some x)
  have hlen := generate_length_le x h10
  rw [generate_eq (generate_short_name (some x))]
  rw [if_neg hne]
  rw [pyStrip_eq_self _ hnoWs, hfix]
  have hnil : (generate_short_name (some x)).toList ≠ [] := by
    intro h
    exact hne (toList_eq_nil h)
  unfold shortFromClean
  rw [splitWs_of_noWs _ hnil hnoWs]
  rw [if_neg (by simp)]
  rw [if_pos (show (generate_short_name (some x)).toList.length ≤ 10 from hlen)]
  exact mk_toList _

/-- Witness for C4 amended at `x = "Acme"`: all hypotheses hold and the
derivation is idempotent. -/
theorem claim_C4_amended_witness :
    ("Acme" : String).length ≤ 10 ∧
    generate_short_name (some "Acme") ≠ "" ∧
    cleanName (generate_short_name (some "Acme")).toList =
      (generate_short_name (some "Acme")).toList ∧
    generate_short_name (some (generate_short_name (some "Acme"))) =
      generate_short_name (some "Acme") :=
  ⟨by decide, by decide, by decide,
   claim_C4_amended "Acme" (by decide) (by decide) (by decide)⟩

/-! ## Character sets of the `float()` grammar -/

theorem goodCh_of_pred (P : Char → Bool)
    (hup : ∀ x, P x = true → isUpperCh x = false)
    (hbad : ∀ b ∈ badChars, P b = false)
    (c : Char) (hc : P c = true) : goodCh c = true := by
  unfold goodCh lowerCh
  rw [if_neg (by rw [hup c hc]; simp)]
  suffices h : badChars.contains c = false by rw [h]; rfl
  by_contra hcon
  have hmem : c ∈ badChars := by
    have : badChars.contains c = true := by
      cases hx : badChars.contains c with
      | true => rfl
      | false => exact absurd hx hcon
    simpa [List.contains, List.elem_iff] using this
  rw [hbad c hmem] at hc
  exact Bool.noConfusion hc

theorem isDigitCh_not_upper (x : Char) (h : isDigitCh x = true) :
    isUpperCh x = false := by
  simp only [isDigitCh, Bool.and_eq_true, decide_eq_true_eq] at h
  simp only [isUpperCh, Bool.and_eq_false_iff, decide_eq_false_iff_not]
  left
  intro hA
  exact absurd (Char.le_trans hA h.2) (by decide)

theorem isWsCh_not_upper (x : Char) (h : isWsCh x = true) :
    isUpperCh x = false := by
  simp only [isWsCh, Bool.or_eq_true, decide_eq_true_eq] at h
  rcases h with ((((h | h) | h) | h) | h) | h <;> rw [h] <;> decide

theorem goodCh_digit (c : Char) (h : isDigitCh c = true) : goodCh c = true :=
  goodCh_of_pred isDigitCh isDigitCh_not_upper (by decide) c h

theorem goodCh_ws (c : Char) (h : isWsCh c = true) : goodCh c = true :=
  goodCh_of_pred isWsCh isWsCh_not_upper (by decide) c h

theorem eatDigitsAux_mem : ∀ (n : ℕ) (l : List Char), l.length ≤ n →
    ∀ c ∈ l, c ∈ eatDigitsAux l ∨ isDigitCh c = true ∨ c = '_' := by
  intro n
  induction n with
  | zero =>
    intro l hl c hc
    rw [List.length_eq_zero.mp (Nat.le_zero.mp hl)] at hc
    exact absurd hc (List.not_mem_nil c)
  | succ n ih =>
    intro l hl c hc
    cases l with
    | nil => exact absurd hc (List.not_mem_nil c)
    | cons c0 r =>
      unfold eatDigitsAux
      by_cases hd : isDigitCh c0 = true
      · rw [if_pos hd]
        rcases List.mem_cons.mp hc with rfl | hc2
        · exact Or.inr (Or.inl hd)
        · exact ih r (by simp only [List.length_cons] at hl; omega) c hc2
      · rw [if_neg hd]
        by_cases hu : c0 = '_'
        · rw [if_pos hu]
          split
          · rename_i d r2
            by_cases hdd : isDigitCh d = true
            · rw [if_pos hdd]
              rcases List.mem_cons.mp hc with rfl | hc2
              · exact Or.inr (Or.inr hu)
              · rcases List.mem_cons.mp hc2 with rfl | hc3
                · exact Or.inr (Or.inl hdd)
                · apply ih r2 _ c hc3
                  simp only [List.length_cons] at hl ⊢
                  omega
            · rw [if_neg hdd]
              exact Or.inl hc
          · exact Or.inl hc
        · rw [if_neg hu]
          exact Or.inl hc

theorem eatDigits_mem (l r : List Char) (h : eatDigits l = some r) :
    ∀ c ∈ l, c ∈ r ∨ isDigitCh c = true ∨ c = '_' := by
  intro c hc
  unfold eatDigits at h
  split at h
  · exact absurd hc (List.not_mem_nil c)
  · rename_i c0 r0
    by_cases hd : isDigitCh c0 = true
    · rw [if_pos hd] at h
      rcases List.mem_cons.mp hc with rfl | hc2
      · exact Or.inr (Or.inl hd)
      · rw [← Option.some_inj.mp h]
        exact eatDigitsAux_mem r0.length r0 (by omega) c hc2
    · rw [if_neg hd] at h
      exact absurd h (by simp)

theorem eatDigitsOpt_mem (l : List Char) :
    ∀ c ∈ l, c ∈ eatDigitsOpt l ∨ isDigitCh c = true ∨ c = '_' := by
  intro c hc
  unfold eatDigitsOpt
  cases h : eatDigits l with
  | none => exact Or.inl hc
  | some r => exact eatDigits_mem l r h c hc

theorem mantissaRest_mem (l r : List Char) (h : mantissaRest l = some r) :
    ∀ c ∈ l, c ∈ r ∨ isDigitCh c = true ∨ c = '_' ∨ c = '.' := by
  intro c hc
  unfold mantissaRest at h
  split at h
  · exact absurd hc (List.not_mem_nil c)
  · rename_i c0 r0
    by_cases hdot : c0 = '.'
    · rw [if_pos hdot] at h
      rcases List.mem_cons.mp hc with rfl | hc2
      · exact Or.inr (Or.inr (Or.inr hdot))
      · rcases eatDigits_mem r0 r h c hc2 with h2 | h2 | h2
        · exact Or.inl h2
        · exact Or.inr (Or.inl h2)
        · exact Or.inr (Or.inr (Or.inl h2))
    · rw [if_neg hdot] at h
      split at h
      · exact absurd h (by simp)
      · rename_i heq
        have hstep := eatDigits_mem (c0 :: r0) [] heq c hc
        rcases hstep with h2 | h2 | h2
        · exact absurd h2 (List.not_mem_nil c)
        · exact Or.inr (Or.inl h2)
        · exact Or.inr (Or.inr (Or.inl h2))
      · rename_i c1 r2 heq
        have hstep := eatDigits_mem (c0 :: r0) (c1 :: r2) heq c hc
        by_cases hdot1 : c1 = '.'
        · rw [if_pos hdot1] at h
          rcases hstep with h2 | h2 | h2
          · rcases List.mem_cons.mp h2 with rfl | h3
            · exact Or.inr (Or.inr (Or.inr hdot1))
            · rcases eatDigitsOpt_mem r2 c h3 with h4 | h4 | h4
              · rw [← Option.some_inj.mp h]; exact Or.inl h4
              · exact Or.inr (Or.inl h4)
              · exact Or.inr (Or.inr (Or.inl h4))
          · exact Or.inr (Or.inl h2)
          · exact Or.inr (Or.inr (Or.inl h2))
        · rw [if_neg hdot1] at h
          rcases hstep with h2 | h2 | h2
          · rw [← Option.some_inj.mp h]; exact Or.inl h2
          · exact Or.inr (Or.inl h2)
          · exact Or.inr (Or.inr (Or.inl h2))

theorem stripSign_mem (l : List Char) :
    ∀ c ∈ l, c ∈ stripSign l ∨ c = '+' ∨ c = '-' := by
  intro c hc
  unfold stripSign
  split
  · exact absurd hc (List.not_mem_nil c)
  · rename_i c0 r
    by_cases hs : (c0 = '+' || c0 = '-') = true
    · rw [if_pos hs]
      rcases List.mem_cons.mp hc with rfl | hc2
      · rw [Bool.or_eq_true] at hs
        rcases hs with h | h
        · exact Or.inr (Or.inl (by simpa using h))
        · exact Or.inr (Or.inr (by simpa using h))
      · exact Or.inl hc2
    · rw [if_neg hs]
      exact Or.inl hc

theorem expTail_mem (l : List Char) (h : expTail l = true) :
    ∀ c ∈ l, isDigitCh c = true ∨ c = '_' ∨ c = '+' ∨ c = '-' := by
  intro c hc
  unfold expTail at h
  split at h
  · rename_i heq
    rcases stripSign_mem l c hc with h1 | h1 | h1
    · rcases eatDigits_mem (stripSign l) [] heq c h1 with h2 | h2 | h2
      · exact absurd h2 (List.not_mem_nil c)
      · exact Or.inl h2
      · exact Or.inr (Or.inl h2)
    · exact Or.inr (Or.inr (Or.inl h1))
    · exact Or.inr (Or.inr (Or.inr h1))
  · exact Bool.noConfusion h

theorem mantExpOk_mem (l : List Char) (h : mantExpOk l = true) :
    ∀ c ∈ l, isDigitCh c = true ∨ c = '_' ∨ c = '.' ∨ c = 'e' ∨ c = 'E' ∨
      c = '+' ∨ c = '-' := by
  intro c hc
  unfold mantExpOk at h
  split at h
  · exact Bool.noConfusion h
  · rename_i hm
    have hstep := mantissaRest_mem l [] hm c hc
    rcases hstep with h2 | h2 | h2 | h2
    · exact absurd h2 (List.not_mem_nil c)
    · exact Or.inl h2
    · exact Or.inr (Or.inl h2)
    · exact Or.inr (Or.inr (Or.inl h2))
  · rename_i ce r2 hm
    have hstep := mantissaRest_mem l (ce :: r2) hm c hc
    rw [Bool.and_eq_true] at h
    rcases hstep with h2 | h2 | h2 | h2
    · rcases List.mem_cons.mp h2 with rfl | h3
      · have h1 := h.1
        rw [Bool.or_eq_true] at h1
        rcases h1 with he | he
        · exact Or.inr (Or.inr (Or.inr (Or.inl (by simpa using he))))
        · exact Or.inr (Or.inr (Or.inr (Or.inr (Or.inl (by simpa using he)))))
      · rcases expTail_mem r2 h.2 c h3 with h4 | h4 | h4 | h4
        · exact Or.inl h4
        · exact Or.inr (Or.inl h4)
        · exact Or.inr (Or.inr (Or.inr (Or.inr (Or.inr (Or.inl h4)))))
        · exact Or.inr (Or.inr (Or.inr (Or.inr (Or.inr (Or.inr h4)))))
    · exact Or.inl h2
    · exact Or.inr (Or.inl h2)
    · exact Or.inr (Or.inr (Or.inl h2))

theorem goodCh_of_lower_mem (c : Char) (L : List Char)
    (hL : ∀ a ∈ L, badChars.contains a = false)
    (hmem : lowerCh c ∈ L) : goodCh c = true := by
  unfold goodCh
  rw [hL _ hmem]
  rfl

/-- Every character of a string the `float()` grammar accepts avoids all
the distinguishing characters of the header keywords. -/
theorem floatAccept_goodCh (l : List Char) (h : floatAcceptList l = true) :
    ∀ c ∈ l, goodCh c = true := by
  intro c hc
  unfold floatAcceptList at h
  rcases pyStrip_mem_or_ws l c hc with h1 | h1
  · rcases stripSign_mem (pyStrip l) c h1 with h2 | h2 | h2
    · rw [Bool.or_eq_true] at h
      rcases h with h3 | h3
      · unfold infnanOk at h3
        rw [Bool.or_eq_true] at h3
        rcases h3 with h4 | h4
        · rw [Bool.or_eq_true] at h4
          rcases h4 with h5 | h5
          · have hmap : (stripSign (pyStrip l)).map lowerCh = "inf".toList := by
              simpa using h5
            exact goodCh_of_lower_mem c _ (by decide)
              (hmap ▸ List.mem_map_of_mem lowerCh h2)
          · have hmap : (stripSign (pyStrip l)).map lowerCh = "infinity".toList := by
              simpa using h5
            exact goodCh_of_lower_mem c _ (by decide)
              (hmap ▸ List.mem_map_of_mem lowerCh h2)
        · have hmap : (stripSign (pyStrip l)).map lowerCh = "nan".toList := by
            simpa using h4
          exact goodCh_of_lower_mem c _ (by decide)
            (hmap ▸ List.mem_map_of_mem lowerCh h2)
      · rcases mantExpOk_mem _ h3 c h2 with h4 | h4 | h4 | h4 | h4 | h4 | h4
        · exact goodCh_digit c h4
        · rw [h4]; decide
        · rw [h4]; decide
        · rw [h4]; decide
        · rw [h4]; decide
        · rw [h4]; decide
        · rw [h4]; decide
    · rw [h2]; decide
    · rw [h2]; decide
  · exact goodCh_ws c h1

/-! ## Keyword search and C8 -/

/-- Each keyword of the header regex contains a distinguishing character. -/
theorem headerKeywords_badChar :
    ∀ kw ∈ headerKeywords, ∃ b, b ∈ badChars ∧ b ∈ kw := by
  decide

theorem searchBy_exists (p : List Char → Bool) :
    ∀ l, searchBy p l = true → ∃ suf, p suf = true ∧ ∀ d ∈ suf, d ∈ l := by
  intro l
  induction l with
  | nil =>
    intro h
    exact ⟨[], by simpa [searchBy] using h, by simp⟩
  | cons c rest ih =>
    intro h
    unfold searchBy at h
    rw [Bool.or_eq_true] at h
    rcases h with h | h
    · exact ⟨c :: rest, h, fun d hd => hd⟩
    · obtain ⟨suf, hp, hsub⟩ := ih h
      exact ⟨suf, hp, fun d hd => List.mem_cons_of_mem c (hsub d hd)⟩

theorem icPrefixOf_mem : ∀ (pat suf : List Char), icPrefixOf pat suf = true →
    ∀ kc ∈ pat, ∃ d ∈ suf, lowerCh d = kc := by
  intro pat
  induction pat with
  | nil => intro suf _ kc hkc; exact absurd hkc (List.not_mem_nil kc)
  | cons k ks ih =>
    intro suf h kc hkc
    cases suf with
    | nil => simp [icPrefixOf] at h
    | cons d ds =>
      unfold icPrefixOf at h
      rw [Bool.and_eq_true] at h
      rcases List.mem_cons.mp hkc with rfl | hkc2
      · exact ⟨d, List.mem_cons_self d ds, by simpa using h.1⟩
      · obtain ⟨d2, hd2, hld⟩ := ih ds h.2 kc hkc2
        exact ⟨d2, List.mem_cons_of_mem d hd2, hld⟩

/-- A string whose comma-replaced form the `float()` grammar accepts
matches no header keyword. -/
theorem hasHeaderKeyword_false_of_good (t : List Char)
    (hgood : ∀ d ∈ t, goodCh (commaRepl d) = true) :
    hasHeaderKeyword t = false := by
  by_contra hcon
  have htrue : hasHeaderKeyword t = true := by
    cases hx : hasHeaderKeyword t with
    | true => rfl
    | false => exact absurd hx hcon
  unfold hasHeaderKeyword at htrue
  rw [List.any_eq_true] at htrue
  obtain ⟨kw, hkw, hct⟩ := htrue
  obtain ⟨b, hbbad, hbkw⟩ := headerKeywords_badChar kw hkw
  unfold containsCI at hct
  obtain ⟨suf, hp, hsub⟩ := searchBy_exists _ t hct
  obtain ⟨d, hd, hld⟩ := icPrefixOf_mem kw suf hp b hbkw
  have hgd := hgood d (hsub d hd)
  have hdne : d ≠ ',' := by
    intro hd0
    rw [hd0] at hld
    have hcm : lowerCh ',' = ',' := by decide
    rw [hcm] at hld
    rw [← hld] at hbbad
    exact absurd hbbad (by decide)
  have hrepl : commaRepl d = d := by
    unfold commaRepl
    rw [if_neg hdne]
  rw [hrepl] at hgd
  unfold goodCh at hgd
  rw [hld] at hgd
  have hmem : badChars.contains b = true := by
    simpa [List.contains, List.elem_iff] using hbbad
  rw [hmem] at hgd
  exact Bool.noConfusion hgd

/-- C8: a row in which every non-empty cell parses as a number (with
comma-as-decimal tolerance) is never classified as a header: it has no
non-numeric hits, and no numeric literal can contain a header keyword. -/
theorem claim_C8_numeric_row_not_header (row : List (Option String))
    (h : rowAllNumeric row = true) : is_header_row row = false := by
  have hcell : ∀ cell ∈ row, ∀ t, cellActiveStr cell = some t →
      floatAcceptList (t.map commaRepl) = true := by
    intro cell hc t ht
    have hx := List.all_eq_true.mp h cell hc
    simp only [ht] at hx
    exact hx
  have hkw : row.countP (fun c =>
      match cellActiveStr c with
      | some t => hasHeaderKeyword t
      | none => false) = 0 := by
    rw [List.countP_eq_zero]
    intro cell hc
    cases ht : cellActiveStr cell with
    | none => simp [ht]
    | some t =>
      have hgood : ∀ d ∈ t, goodCh (commaRepl d) = true := by
        intro d hd
        exact floatAccept_goodCh _ (hcell cell hc t ht) (commaRepl d)
          (List.mem_map_of_mem commaRepl hd)
      simp [ht, hasHeaderKeyword_false_of_good t hgood]
  have hnn : row.countP (fun c =>
      match cellActiveStr c with
      | some t => !floatAcceptList (t.map commaRepl)
      | none => false) = 0 := by
    rw [List.countP_eq_zero]
    intro cell hc
    cases ht : cellActiveStr cell with
    | none => simp [ht]
    | some t => simp [ht, hcell cell hc t ht]
  unfold is_header_row headerCounts
  simp only [hkw, hnn]
  by_cases hne : row.countP (fun c => (cellActiveStr c).isSome) = 0
  · rw [if_pos hne]
  · rw [if_neg hne]
    apply decide_eq_false
    intro hor
    have hq : qdiv ((0 : ℕ) : ℚ)
        ((row.countP (fun c => (cellActiveStr c).isSome) : ℕ) : ℚ) = 0 := by
      rw [qdiv_eq]
      simp
    rcases hor with hlt | hlt
    · rw [hq, qdiv_eq] at hlt
      norm_num at hlt
    · rw [hq, qdiv_eq] at hlt
      norm_num at hlt

/-- Witness for C8: a row of comma-decimal and padded numbers (with a
missing and a blank cell) is not classified as a header. -/
theorem claim_C8_numeric_row_not_header_witness :
    rowAllNumeric [some "12,5", some " 2 ", none, some ""] = true ∧
    is_header_row [some "12,5", some " 2 ", none, some ""] = false :=
  ⟨by decide, claim_C8_numeric_row_not_header _ (by decide)⟩

/-! ## The standardizer (C3) -/

theorem alignSeries_id (n : ℕ) (v : List Val) (h : v.length = n) :
    alignSeries n v = v := by
  unfold alignSeries
  rw [← h, List.take_length, Nat.sub_self, List.replicate_zero, List.append_nil]

theorem assignSeries_adopt (name : String) (v : List Val) (h : v ≠ []) :
    assignSeries emptyBuild name v = ⟨v.length, [(name, v)]⟩ := by
  unfold assignSeries emptyBuild
  rw [if_pos]
  · rfl
  · simp [List.isEmpty_iff, h]

theorem assignSeries_cons (n : ℕ) (cols : List (String × List Val))
    (name : String) (v : List Val) (hn : n ≠ 0) (hv : v.length = n) :
    assignSeries ⟨n, cols⟩ name v = ⟨n, cols ++ [(name, v)]⟩ := by
  unfold assignSeries
  rw [if_neg]
  · show (⟨n, cols ++ [(name, alignSeries n v)]⟩ : BuildState) =
      ⟨n, cols ++ [(name, v)]⟩
    rw [alignSeries_id _ _ hv]
  · simp [hn]

theorem assignScalar_cons (n : ℕ) (cols : List (String × List Val))
    (name : String) (x : Val) :
    assignScalar ⟨n, cols⟩ name x = ⟨n, cols ++ [(name, List.replicate n x)]⟩ :=
  rfl

theorem getCol_length_of_mem (df : DataFrame)
    (hrect : ∀ c ∈ df.cols, c.cells.length = df.nrows)
    (label : String) (hmem : label ∈ df.cols.map Column.name) :
    (getCol df label).length = df.nrows := by
  obtain ⟨c, hc, hname⟩ := List.mem_map.mp hmem
  have hex : ∃ x ∈ df.cols, (fun c => c.name == label) x = true :=
    ⟨c, hc, by simp [hname]⟩
  have hsome := List.find?_isSome.mpr hex
  cases hfind : df.cols.find? (fun c => c.name == label) with
  | none => rw [hfind] at hsome; exact Bool.noConfusion hsome
  | some c2 =>
    unfold getCol
    rw [hfind]
    exact hrect c2 (List.mem_of_find?_eq_some hfind)

theorem colVals_here (n : ℕ) (name : String) (v : List Val)
    (rest : List (String × List Val)) :
    colVals ⟨n, (name, v) :: rest⟩ name = some v := by
  unfold colVals
  rw [List.find?_cons_of_pos]
  · rfl
  · simp

/-- C3: the claim fails for an unresolved full-name role: when the
full-name role is undetected and a later role resolves to a column, pandas
index adoption (`_ensure_valid_index`) reindexes the already-assigned
scalar `"Unknown"` full-name column of the initially empty frame to
all-`NaN`, instead of the literal string `"Unknown"` the spec promises. -/
theorem claim_C3_counterexample :
    colVals (standardize_dataframe exC3df exC3det) "company_full_name" =
      some [Val.na, Val.na] ∧
    colVals (standardize_dataframe exC3df exC3det) "company_full_name" ≠
      some (List.replicate exC3df.nrows (Val.s "Unknown")) := by
  decide

/-- C3 (amended): when the full-name role resolves to a column of a
rectangular nonempty table, and every resolved role names a table column,
the standardizer is exactly the spec's per-role rules: the full-name column
is copied; the short-name column is copied when resolved and otherwise
derived per-row from the standardized full-name column; currency is copied
when resolved and otherwise the literal string `"Unknown"`; price is
numeric-coerced when resolved and otherwise missing (never zero). -/
theorem claim_C3_amended (df : DataFrame) (det : Detected) (f : String)
    (hf : det.full_name = some f)
    (hpos : 0 < df.nrows)
    (hrect : ∀ c ∈ df.cols, c.cells.length = df.nrows)
    (hfm : f ∈ df.cols.map Column.name)
    (hs : ∀ g, det.short_name = some g → g ∈ df.cols.map Column.name)
    (hc : ∀ g, det.currency = some g → g ∈ df.cols.map Column.name)
    (hp : ∀ g, det.price = some g → g ∈ df.cols.map Column.name) :
    standardize_dataframe df det =
      ⟨df.nrows,
       [("company_full_name", (getCol df f).map cellToVal),
        ("company_short_name", specShortCol df det f),
        ("currency", specCurrencyCol df det),
        ("price", specPriceCol df det)]⟩ := by
  have hnz : df.nrows ≠ 0 := Nat.pos_iff_ne_zero.mp hpos
  have hlenF : ((getCol df f).map cellToVal).length = df.nrows := by
    rw [List.length_map]
    exact getCol_length_of_mem df hrect f hfm
  have hvne : (getCol df f).map cellToVal ≠ [] := by
    intro h0
    rw [h0] at hlenF
    simp at hlenF
    omega
  have hlenD : (((getCol df f).map cellToVal).map derivedShortVal).length
      = df.nrows := by
    rw [List.length_map, hlenF]
  cases hsn : det.short_name with
  | some g =>
    have hlenG : ((getCol df g).map cellToVal).length = df.nrows := by
      rw [List.length_map]
      exact getCol_length_of_mem df hrect g (hs g hsn)
    cases hcu : det.currency with
    | some u =>
      have hlenU : ((getCol df u).map cellToVal).length = df.nrows := by
        rw [List.length_map]
        exact getCol_length_of_mem df hrect u (hc u hcu)
      cases hpr : det.price with
      | some p =>
        have hlenP : ((getCol df p).map toNumericVal).length = df.nrows := by
          rw [List.length_map]
          exact getCol_length_of_mem df hrect p (hp p hpr)
        simp only [standardize_dataframe, hf, hsn, hcu, hpr]
        rw [assignSeries_adopt _ _ hvne, hlenF,
            assignSeries_cons _ _ _ _ hnz hlenG,
            assignSeries_cons _ _ _ _ hnz hlenU,
            assignSeries_cons _ _ _ _ hnz hlenP]
        simp [specShortCol, specCurrencyCol, specPriceCol, hsn, hcu, hpr]
      | none =>
        simp only [standardize_dataframe, hf, hsn, hcu, hpr]
        rw [assignSeries_adopt _ _ hvne, hlenF,
            assignSeries_cons _ _ _ _ hnz hlenG,
            assignSeries_cons _ _ _ _ hnz hlenU,
            assignScalar_cons]
        simp [specShortCol, specCurrencyCol, specPriceCol, hsn, hcu, hpr]
    | none =>
      cases hpr : det.price with
      | some p =>
        have hlenP : ((getCol df p).map toNumericVal).length = df.nrows := by
          rw [List.length_map]
          exact getCol_length_of_mem df hrect p (hp p hpr)
        simp only [standardize_dataframe, hf, hsn, hcu, hpr]
        rw [assignSeries_adopt _ _ hvne, hlenF,
            assignSeries_cons _ _ _ _ hnz hlenG,
            assignScalar_cons,
            assignSeries_cons _ _ _ _ hnz hlenP]
        simp [specShortCol, specCurrencyCol, specPriceCol, hsn, hcu, hpr]
      | none =>
        simp only [standardize_dataframe, hf, hsn, hcu, hpr]
        rw [assignSeries_adopt _ _ hvne, hlenF,
            assignSeries_cons _ _ _ _ hnz hlenG,
            assignScalar_cons,
            assignScalar_cons]
        simp [specShortCol, specCurrencyCol, specPriceCol, hsn, hcu, hpr]
  | none =>
    cases hcu : det.currency with
    | some u =>
      have hlenU : ((getCol df u).map cellToVal).length = df.nrows := by
        rw [List.length_map]
        exact getCol_length_of_mem df hrect u (hc u hcu)
      cases hpr : det.price with
      | some p =>
        have hlenP : ((getCol df p).map toNumericVal).length = df.nrows := by
          rw [List.length_map]
          exact getCol_length_of_mem df hrect p (hp p hpr)
        simp only [standardize_dataframe, hf, hsn, hcu, hpr]
        rw [assignSeries_adopt _ _ hvne, hlenF, colVals_here,
            Option.getD_some,
            assignSeries_cons _ _ _ _ hnz hlenD,
            assignSeries_cons _ _ _ _ hnz hlenU,
            assignSeries_cons _ _ _ _ hnz hlenP]
        simp [specShortCol, specCurrencyCol, specPriceCol, hsn, hcu, hpr]
      | none =>
        simp only [standardize_dataframe, hf, hsn, hcu, hpr]
        rw [assignSeries_adopt _ _ hvne, hlenF, colVals_here,
            Option.getD_some,
            assignSeries_cons _ _ _ _ hnz hlenD,
            assignSeries_cons _ _ _ _ hnz hlenU,
            assignScalar_cons]
        simp [specShortCol, specCurrencyCol, specPriceCol, hsn, hcu, hpr]
    | none =>
      cases hpr : det.price with
      | some p =>
        have hlenP : ((getCol df p).map toNumericVal).length = df.nrows := by
          rw [List.length_map]
          exact getCol_length_of_mem df hrect p (hp p hpr)
        simp only [standardize_dataframe, hf, hsn, hcu, hpr]
        rw [assignSeries_adopt _ _ hvne, hlenF, colVals_here,
            Option.getD_some,
            assignSeries_cons _ _ _ _ hnz hlenD,
            assignScalar_cons,
            assignSeries_cons _ _ _ _ hnz hlenP]
        simp [specShortCol, specCurrencyCol, specPriceCol, hsn, hcu, hpr]
      | none =>
        simp only [standardize_dataframe, hf, hsn, hcu, hpr]
        rw [assignSeries_adopt _ _ hvne, hlenF, colVals_here,
            Option.getD_some,
            assignSeries_cons _ _ _ _ hnz hlenD,
            assignScalar_cons,
            assignScalar_cons]
        simp [specShortCol, specCurrencyCol, specPriceCol, hsn, hcu, hpr]

/-- Witness for the amended C3 on a concrete one-row table with full name,
short name and price resolved and currency unresolved. -/
theorem claim_C3_amended_witness :
    standardize_dataframe exC3wdf exC3wdet =
      ⟨1, [("company_full_name", (getCol exC3wdf "Name").map cellToVal),
           ("company_short_name", specShortCol exC3wdf exC3wdet "Name"),
           ("currency", specCurrencyCol exC3wdf exC3wdet),
           ("price", specPriceCol exC3wdf exC3wdet)]⟩ :=
  claim_C3_amended exC3wdf exC3wdet "Name" rfl (by decide) (by decide)
    (by decide)
    (fun g h => by rw [← Option.some.inj h]; decide)
    (fun g h => Option.noConfusion h)
    (fun g h => by rw [← Option.some.inj h]; decide)

/-! ## Persistence across a re-run (C7) -/

/-- C7 is a code bug: the standardized frame of the company schema has no
`session_id` column (the `invoices` table and `save_invoice_data` use the
EVSE/session schema), so every INSERT binds `session_id` to NULL, which
SQLite's `UNIQUE(session_id)` never treats as a conflict.  Re-processing
the same file therefore inserts every row again: the second save reports
all rows inserted and none skipped, and the store's row count doubles,
while the transient standardized output is unchanged. -/
theorem claim_C7_rerun_inserts_again :
    process_parsed exC7df = Except.ok exC7std ∧
    exC7std.nrows = 1 ∧
    (save_invoice_data exC7std (save_invoice_data exC7std dbEmpty).2.2).1 = 1 ∧
    (save_invoice_data exC7std (save_invoice_data exC7std dbEmpty).2.2).2.1 = 0 ∧
    (save_invoice_data exC7std (save_invoice_data exC7std dbEmpty).2.2).2.2.rowCount = 2 := by
  decide

end InvoiceMerger
